import Mathlib

/-!
Verification development for the uC compiler middle-end (ply-python-compiler).

The definitions below are shallow embeddings of the Python sources:
  * instruction classification and the dataflow passes from uc_code.py
    (CodeGenerator.instruction_analisys, reaching_definitions,
    liveness_analisys, constant_folding, branch_folding,
    deadcode_elimination, changeBlockToBasic, make_label);
  * NodeInfo equality from objects.py and the uCType singletons from
    uc_type.py;
  * the global constant pool operations from uc_sema.py
    (Environment.add_global_str, Environment.add_global_array) and the
    assert diagnostics from Visitor.visit_Assert together with the false
    branch emitted by CodeGenerator.visit_Assert.

Python dictionaries and object attributes are represented by structures,
Python sets by Finset, Python None by Option, and a raised exception by an
Option-valued result being none.  Instruction tuples are an opcode string
together with a list of operands.
-/

/-- An operand of a three-address instruction.  Python stores variable and
label names as strings, literal values as int, float or bool; the compiler
compares operands with structural equality, so a sum type mirrors the mixed
tuples. -/
inductive Arg where
  | var (s : String)
  | intv (n : Int)
  | floatv (q : Rat)
  | boolv (b : Bool)
  deriving DecidableEq, Repr

/-- An instruction tuple (opcode, args...). -/
structure Inst where
  op : String
  args : List Arg
  deriving DecidableEq, Repr

/-- Python inst[1], the first operand.  The classifier only reads it when a
use regex matched, in which case the operand exists; the default keeps the
function total. -/
def Inst.arg1 (i : Inst) : Arg := i.args.getD 0 (Arg.var "")

/-- Python inst[2], the second operand. -/
def Inst.arg2 (i : Inst) : Arg := i.args.getD 1 (Arg.var "")

/-- Python inst[-1]: the last element of the whole tuple, which is the last
operand, or the opcode itself for a bare label tuple. -/
def Inst.lastElem (i : Inst) : Arg := i.args.getLastD (Arg.var i.op)

/-- Character-list prefix test; same value as String.startsWith, stated on
the underlying character lists so that the kernel can evaluate it. -/
def strStartsWith (s p : String) : Bool := p.data.isPrefixOf s.data

/-- Character-list drop; same value as String.drop on ASCII opcode strings. -/
def strDrop (s : String) (n : Nat) : String := ⟨s.data.drop n⟩

/-- Keyword alternatives of definition_re in CodeGenerator.instruction_analisys
(uc_code.py line 1112), each already joined with the underscore that follows
the alternation group in the regex. -/
def defKeywords : List String :=
  ["load_", "store_", "literal_", "elem_", "get_", "add_", "sub_", "mul_",
   "div_", "mod_", "lt_", "le_", "ge_", "gt_", "eq_", "ne_", "and_", "or_",
   "not_", "read_", "alloc_"]

/-- re.match against an alternation (kw1|kw2|...)_.* : the opcode starts with
one keyword followed by an underscore. -/
def kwMatch (kws : List String) (op : String) : Bool :=
  kws.any fun k => strStartsWith op k

/-- definition_re of instruction_analisys:
(load|store|literal|elem|get|add|sub|mul|div|mod|lt|le|ge|gt|eq|ne|and|or|not|read|alloc)_.*|fptosi|sitofp|call
under re.match, which anchors at the start only. -/
def definitionMatch (op : String) : Bool :=
  kwMatch defKeywords op || strStartsWith op "fptosi"
    || strStartsWith op "sitofp" || strStartsWith op "call"

/-- Keyword alternatives of uses_1_re (uc_code.py line 1116), with the
underscore joined on. -/
def uses1Keywords : List String :=
  ["load_", "store_", "get_", "return_", "param_", "print_", "not_"]

/-- re.match against (kw1|...)_(?!void).* : keyword, underscore, and the rest
must not begin with void. -/
def kwMatchNotVoid (kws : List String) (op : String) : Bool :=
  kws.any fun k =>
    strStartsWith op k && !(strStartsWith (strDrop op k.length) "void")

/-- uses_1_re: (load|store|get|return|param|print|not)_(?!void).*|fptosi|sitofp|call -/
def uses1Match (op : String) : Bool :=
  kwMatchNotVoid uses1Keywords op || strStartsWith op "fptosi"
    || strStartsWith op "sitofp" || strStartsWith op "call"

/-- Keyword alternatives of uses_2_re (uc_code.py line 1117), with the
underscore joined on. -/
def uses2Keywords : List String :=
  ["elem_", "add_", "sub_", "mul_", "div_", "mod_", "lt_", "le_", "ge_",
   "gt_", "eq_", "ne_", "and_", "or_"]

/-- uses_2_re: (elem|add|sub|mul|div|mod|lt|le|ge|gt|eq|ne|and|or)_.* -/
def uses2Match (op : String) : Bool := kwMatch uses2Keywords op

/-- uses_3_re: cbranch (re.match, so a prefix match). -/
def uses3Match (op : String) : Bool := strStartsWith op "cbranch"

/-- The extra-use test at uc_code.py line 1144, re.match with pattern
store_.+_* .  The trailing _* matches zero or more underscores, so the regex
accepts every opcode that starts with store_ followed by at least one
character; scalar stores match it as well as pointer stores. -/
def storeExtraMatch (op : String) : Bool :=
  strStartsWith op "store_" && decide (6 < op.length)

/-- The def set built by instruction_analisys: a singleton holding inst[-1]
when definition_re matches, empty otherwise.  In the source the set never
holds more than one element, so an Option represents it. -/
def instDef (i : Inst) : Option Arg :=
  if definitionMatch i.op then some i.lastElem else none

/-- View of the def Option as a Finset, for the set algebra of the passes. -/
def optSet (o : Option Arg) : Finset Arg :=
  match o with
  | none => ∅
  | some a => {a}

/-- The use set built by instruction_analisys: uses_1_re, elif uses_2_re,
elif uses_3_re, and then the store extra-use union with the def set. -/
def instUse (i : Inst) : Finset Arg :=
  (if uses1Match i.op then {i.arg1}
   else if uses2Match i.op then {i.arg1, i.arg2}
   else if uses3Match i.op then {i.arg1}
   else ∅)
  ∪ (if storeExtraMatch i.op then optSet (instDef i) else ∅)

/-- C1 counterexample input: the scalar store instruction store_int %1, %x. -/
def c1Inst : Inst := ⟨"store_int", [Arg.var "%1", Arg.var "%x"]⟩

/-- C1: the claim states that a scalar store uses exactly its first operand.
The classifier in instruction_analisys puts the destination %x into the use
set of the scalar store store_int %1, %x as well, because the regex
store_.+_* matches every store opcode; the use set is therefore not the
singleton of the first operand. -/
theorem c1_counterexample :
    instUse c1Inst = {Arg.var "%1", Arg.var "%x"} ∧
      instUse c1Inst ≠ {Arg.var "%1"} := by
  constructor <;> decide

/-- C1 amended: in the unary-use family, every store opcode (scalar or
pointer form) has use set first operand together with the destination (the
last operand); every other opcode of the family uses only its first
operand. -/
theorem c1_amended (i : Inst) :
    (uses1Match i.op = true → strStartsWith i.op "store_" = false →
      instUse i = {i.arg1}) ∧
    (uses1Match i.op = true → strStartsWith i.op "store_" = true →
      6 < i.op.length → instUse i = {i.arg1, i.lastElem}) := by
  constructor
  · intro h1 h2
    have hse : storeExtraMatch i.op = false := by
      simp [storeExtraMatch, h2]
    simp [instUse, h1, hse]
  · intro h1 h2 hlen
    have hse : storeExtraMatch i.op = true := by
      simp [storeExtraMatch, h2, hlen]
    have hdef : definitionMatch i.op = true := by
      simp only [definitionMatch, kwMatch, defKeywords, Bool.or_eq_true,
        List.any_eq_true, List.mem_cons]
      exact Or.inl (Or.inl (Or.inl ⟨"store_", by simp, h2⟩))
    simp only [instUse, h1, hse, instDef, hdef, optSet, if_true]
    exact (Finset.insert_eq i.arg1 {i.lastElem}).symm

/-- C1 amended witness: evaluated at the scalar store store_int %1, %x and
at the non-store unary-use opcode load_int. -/
theorem c1_amended_witness :
    instUse c1Inst = {c1Inst.arg1, c1Inst.lastElem} ∧
      instUse ⟨"load_int", [Arg.var "%a", Arg.var "%2"]⟩ =
        {Inst.arg1 ⟨"load_int", [Arg.var "%a", Arg.var "%2"]⟩} := by
  refine ⟨(c1_amended c1Inst).2 (by decide) (by decide) (by decide), ?_⟩
  exact (c1_amended ⟨"load_int", [Arg.var "%a", Arg.var "%2"]⟩).1
    (by decide) (by decide)
/-- uCType equality from uc_type.py (uCType.__eq__): the typename any
compares equal to every type; otherwise equality is nominal on the
typename.  A type descriptor is modelled by its typename string. -/
def ucTypeEq (a b : String) : Bool := a == "any" || b == "any" || a == b

/-- The NodeInfo decoration of objects.py, with the defaults installed by
NodeInfo.__init__.  Only func, array, depth and type take part in
NodeInfo.__eq__; the remaining fields are carried for completeness. -/
structure NodeInfo where
  func : Bool := false
  params : Option (List String) := none
  depth : Int := 0
  length : Option Int := none
  array : Bool := false
  type : String
  index : Option Nat := none
  location : Option String := none
  deriving DecidableEq, Repr

/-- NodeInfo.__eq__ of objects.py (lines 35 to 48): a falsy other compares
unequal; then the three return statements of the source in order.  The third
return compares only type, array and depth, ignoring func. -/
def nodeInfoEq : NodeInfo → Option NodeInfo → Bool
  | _, none => false
  | a, some b =>
    if a.func == b.func && a.array == b.array && ucTypeEq a.type b.type
        && a.depth == b.depth then
      true
    else if !a.func && !b.func && (a.array != b.array) &&
        ((ucTypeEq a.type "char" && ucTypeEq b.type "string") ||
         (ucTypeEq a.type "string" && ucTypeEq b.type "char")) then
      true
    else
      ucTypeEq a.type b.type && a.array == b.array && a.depth == b.depth

/-- The equality relation asserted by the claim, stated from the words of
the spec: func, array, depth and type all agree, or the char and string
exemption between NodeInfos of matching shapes with neither naming a
function. -/
def nodeInfoEqSpec (a b : NodeInfo) : Bool :=
  (a.func == b.func && a.array == b.array && a.depth == b.depth
    && ucTypeEq a.type b.type) ||
  (!a.func && !b.func && a.array == b.array && a.depth == b.depth &&
    ((ucTypeEq a.type "char" && ucTypeEq b.type "string") ||
     (ucTypeEq a.type "string" && ucTypeEq b.type "char")))

/-- C2 counterexample input: an int-typed NodeInfo naming a function. -/
def c2a : NodeInfo := { func := true, type := "int" }

/-- C2 counterexample input: the same NodeInfo not naming a function. -/
def c2b : NodeInfo := { func := false, type := "int" }

/-- C2: the claim states equality holds only when func agrees (or under the
char and string exemption).  The fallback return of NodeInfo.__eq__ ignores
func, so an int NodeInfo with func set compares equal to one without. -/
theorem c2_counterexample :
    nodeInfoEq c2a (some c2b) = true ∧ nodeInfoEqSpec c2a c2b = false := by
  decide

/-- C2 amended: two NodeInfos compare equal iff type, array and depth agree
(func is not compared), or neither names a function, their array flags
differ, and one is char-typed while the other is string-typed (depth is not
compared in the exemption). -/
theorem c2_amended (a b : NodeInfo) :
    nodeInfoEq a (some b) = true ↔
      ((ucTypeEq a.type b.type && a.array == b.array && a.depth == b.depth)
          = true ∨
       (!a.func && !b.func && (a.array != b.array) &&
         ((ucTypeEq a.type "char" && ucTypeEq b.type "string") ||
          (ucTypeEq a.type "string" && ucTypeEq b.type "char"))) = true) := by
  simp only [nodeInfoEq]
  split_ifs with h h2 <;> simp_all

/-- A global constant-pool entry of uc_sema.py: a string, an unboxed array
value (one- or two-dimensional, covering the initializers the claims range
over), or the None left behind by visit_Program when a global variable
shadows a pool entry. -/
inductive PConst where
  | pstr (s : String)
  | parr (vs : List Arg)
  | parr2 (vs : List (List Arg))
  | pnone
  deriving DecidableEq, Repr

/-- Environment.add_global_str (uc_sema.py lines 254 to 264): append the
string only when no equal entry exists, then return the index of the first
equal entry. -/
def add_global_str (consts : List PConst) (s : String) : Nat × List PConst :=
  if PConst.pstr s ∈ consts then
    (consts.indexOf (PConst.pstr s), consts)
  else
    ((consts ++ [PConst.pstr s]).indexOf (PConst.pstr s),
      consts ++ [PConst.pstr s])

/-- Environment.add_global_array (uc_sema.py lines 243 to 252): append the
unboxed array unconditionally, then return the index of the first equal
entry. -/
def add_global_array (consts : List PConst) (v : PConst) : Nat × List PConst :=
  ((consts ++ [v]).indexOf v, consts ++ [v])

/-- C7: interning the same string twice returns the same index and leaves
the pool unchanged on the second call (so at most one entry is added in
total), while interning an array literal grows the pool by one entry on
every call. -/
theorem c7_thm (consts : List PConst) (s : String) (v : PConst) :
    ((add_global_str (add_global_str consts s).2 s).1
        = (add_global_str consts s).1 ∧
     (add_global_str (add_global_str consts s).2 s).2
        = (add_global_str consts s).2 ∧
     (add_global_str consts s).2.length ≤ consts.length + 1) ∧
    (add_global_array consts v).2.length = consts.length + 1 := by
  refine ⟨?_, by simp [add_global_array]⟩
  by_cases h : PConst.pstr s ∈ consts
  · exact ⟨by simp [add_global_str, h], by simp [add_global_str, h],
      by simp [add_global_str, h]⟩
  · have h2 : PConst.pstr s ∈ consts ++ [PConst.pstr s] := by simp
    exact ⟨by simp [add_global_str, h, h2], by simp [add_global_str, h, h2],
      by simp [add_global_str, h]⟩

/-- C10: interning an array literal always appends (pool grows by one per
call), and a second interning of an equal array returns the index of the
first equal entry, so textually equal array initializers share one index. -/
theorem c10_thm (consts : List PConst) (v : PConst) :
    (add_global_array consts v).2.length = consts.length + 1 ∧
    (add_global_array (add_global_array consts v).2 v).2.length
        = consts.length + 2 ∧
    (add_global_array (add_global_array consts v).2 v).1
        = (add_global_array consts v).1 ∧
    (v ∈ consts → (add_global_array consts v).1 = consts.indexOf v) := by
  refine ⟨by simp [add_global_array], by simp [add_global_array], ?_, ?_⟩
  · have hv : v ∈ consts ++ [v] := by simp
    simpa [add_global_array] using @List.indexOf_append_of_mem _ _ [v] _ _ hv
  · intro hv
    simpa [add_global_array] using @List.indexOf_append_of_mem _ _ [v] _ _ hv

/-- C10 witness: evaluated at a pool already holding the array value. -/
theorem c10_witness :
    (add_global_array [PConst.parr [Arg.intv 1, Arg.intv 2]]
        (PConst.parr [Arg.intv 1, Arg.intv 2])).1
      = [PConst.parr [Arg.intv 1, Arg.intv 2]].indexOf
          (PConst.parr [Arg.intv 1, Arg.intv 2]) := by
  exact (c10_thm [PConst.parr [Arg.intv 1, Arg.intv 2]]
    (PConst.parr [Arg.intv 1, Arg.intv 2])).2.2.2 (by decide)

/-- CodeGenerator.make_label (uc_code.py lines 238 to 245) over the
class-level labels dictionary, modelled as a total map with default zero to
mirror labels.get(name, 0).  Returns the produced label and the updated
map. -/
def make_label (labels : String → Nat) (name : String) :
    String × (String → Nat) :=
  (if labels name = 0 then "%" ++ name
   else "%" ++ name ++ "." ++ toString (labels name),
   fun n => if n = name then labels name + 1 else labels n)

/-- The label produced by the (k+1)-st call of make_label with the same base
name, all calls threaded through one shared map. -/
def makeLabelIter (name : String) : Nat → (String → Nat) → String
  | 0, m => (make_label m name).1
  | k + 1, m => makeLabelIter name k (make_label m name).2

/-- The counter seen by the (k+1)-st call is the starting counter plus k. -/
theorem makeLabelIter_eq (name : String) :
    ∀ (k : Nat) (m : String → Nat),
      makeLabelIter name k m =
        (if m name + k = 0 then "%" ++ name
         else "%" ++ name ++ "." ++ toString (m name + k)) := by
  intro k
  induction k with
  | zero => intro m; simp [makeLabelIter, make_label]
  | succ k ih =>
      intro m
      rw [makeLabelIter, ih]
      have h1 : (make_label m name).2 name = m name + 1 := by simp [make_label]
      rw [h1]
      have h2 : m name + 1 + k = m name + (k + 1) := by omega
      rw [h2]

/-- C8: with a fresh base name b (counter zero), the first call of the label
allocator returns the plain label, the (k+1)-st call returns the label with
suffix k, and a call with a different base name leaves the counter of b
unchanged (one shared counter map keyed by base name). -/
theorem c8_thm (m : String → Nat) (b a : String) (k : Nat) (hb : m b = 0)
    (hab : a ≠ b) :
    makeLabelIter b 0 m = "%" ++ b ∧
    (1 ≤ k → makeLabelIter b k m = "%" ++ b ++ "." ++ toString k) ∧
    (make_label m a).2 b = m b := by
  refine ⟨?_, ?_, ?_⟩
  · rw [makeLabelIter_eq]
    simp [hb]
  · intro hk
    rw [makeLabelIter_eq, hb]
    have h0 : ¬(0 + k = 0) := by omega
    rw [if_neg h0, Nat.zero_add]
  · have hba : b ≠ a := Ne.symm hab
    simp [make_label, hba]

/-- C8 witness: a map with every counter zero, base name for.cond, third
call, and an interleaved call with base name assert.true. -/
theorem c8_witness :
    makeLabelIter "for.cond" 0 (fun _ => 0) = "%" ++ "for.cond" ∧
    makeLabelIter "for.cond" 2 (fun _ => 0)
      = "%" ++ "for.cond" ++ "." ++ toString 2 ∧
    (make_label (fun _ => 0) "assert.true").2 "for.cond" = 0 := by
  have h := c8_thm (fun _ => 0) "for.cond" "assert.true" 2 rfl (by decide)
  exact ⟨h.1, h.2.1 (by omega), h.2.2⟩

/-- The diagnostic message interned by Visitor.visit_Assert (uc_sema.py
lines 382 to 392): assertion_fail on line:column, where the column is the
assert coordinate plus the length of the text assert followed by one
space. -/
def assertErrorMessage (line col : Nat) : String :=
  "assertion_fail on " ++ toString line ++ ":"
    ++ toString (col + ("assert " : String).length)

/-- Visitor.visit_Assert interns the message through add_global_const, which
dispatches strings to add_global_str. -/
def visit_Assert_sema (consts : List PConst) (line col : Nat) :
    Nat × List PConst :=
  add_global_str consts (assertErrorMessage line col)

/-- The instructions CodeGenerator.visit_Assert (uc_code.py lines 627 to
655) appends to the false block: its label, a print_string of the interned
pool entry, and the jump to the function exit block. -/
def assertFalseBlockInsts (targetFalse : String) (errIdx : Nat)
    (retLabel : String) : List Inst :=
  [⟨strDrop targetFalse 1 ++ ":", []⟩,
   ⟨"print_string", [Arg.var ("@.str." ++ toString errIdx)]⟩,
   ⟨"jump", [Arg.var retLabel]⟩]

/-- C9: for an assert at source coordinate (line, col), semantic analysis
interns exactly the message assertion_fail on line:(col + 7) at the returned
pool index, and the false branch of the lowered assert prints that pool
entry. -/
theorem c9_thm (consts : List PConst) (line col : Nat) (tf rl : String) :
    (visit_Assert_sema consts line col).2.get?
        (visit_Assert_sema consts line col).1
      = some (PConst.pstr ("assertion_fail on " ++ toString line ++ ":"
          ++ toString (col + 7))) ∧
    Inst.mk "print_string"
        [Arg.var ("@.str." ++ toString (visit_Assert_sema consts line col).1)]
      ∈ assertFalseBlockInsts tf (visit_Assert_sema consts line col).1 rl := by
  have hlen : ("assert " : String).length = 7 := rfl
  constructor
  · have hmem : PConst.pstr (assertErrorMessage line col)
        ∈ (visit_Assert_sema consts line col).2 := by
      unfold visit_Assert_sema
      by_cases h : PConst.pstr (assertErrorMessage line col) ∈ consts <;>
        simp [add_global_str, h]
    have hidx : (visit_Assert_sema consts line col).1
        = (visit_Assert_sema consts line col).2.indexOf
            (PConst.pstr (assertErrorMessage line col)) := by
      unfold visit_Assert_sema
      by_cases h : PConst.pstr (assertErrorMessage line col) ∈ consts <;>
        simp [add_global_str, h]
    rw [hidx, List.indexOf_get? hmem, assertErrorMessage, hlen]
  · simp [assertFalseBlockInsts]

/-- A code object of CodeGenerator.instruction_analisys: instruction label
(counter value), the instruction, its def set (at most one element, so an
Option), its use set, and the alive flag used by dead-code elimination. -/
structure IObj where
  label : Nat
  inst : Inst
  defS : Option Arg
  useS : Finset Arg
  alive : Bool
  deriving DecidableEq

/-- Build the code object for one instruction, as instruction_analisys does. -/
def mkIObj (lbl : Nat) (i : Inst) : IObj :=
  { label := lbl, inst := i, defS := instDef i, useS := instUse i,
    alive := true }

/-- A block of uc_block.py.  BasicBlock and ConditionBlock are distinguished
by isCond; branch is the BasicBlock successor, taken and fallThrough the
ConditionBlock successors.  Blocks reference each other by id (Python object
identity); the next_block chain is the order of the list holding the
blocks. -/
structure Blk where
  id : Nat
  label : String
  isCond : Bool
  branch : Option Nat := none
  taken : Option Nat := none
  fallThrough : Option Nat := none
  preds : List Nat := []
  insts : List Inst := []
  code : List IObj := []
  rdGen : Finset Nat := ∅
  rdKill : Finset Nat := ∅
  rdIn : Finset Nat := ∅
  rdOut : Finset Nat := ∅
  laUse : Finset Arg := ∅
  laDef : Finset Arg := ∅
  laIn : Finset Arg := ∅
  laOut : Finset Arg := ∅
  deriving DecidableEq

/-- The successor list read by the passes: taken and fall_through for a
ConditionBlock, branch for a BasicBlock. -/
def Blk.succs (b : Blk) : List (Option Nat) :=
  if b.isCond then [b.taken, b.fallThrough] else [b.branch]

/-- The per-function analysis state: the next_block chain of blocks in
order, and the self.code_obj list of the generator.  In Python the entries
of block.code_obj and self.code_obj are the same dictionaries; here every
mutation is applied to both lists. -/
structure St where
  blocks : List Blk
  codeObjs : List IObj
  deriving DecidableEq

/-- Find the block with the given id. -/
def St.blk? (st : St) (n : Nat) : Option Blk :=
  st.blocks.find? fun b => b.id == n

/-- Update the block with the given id. -/
def St.updBlk (st : St) (n : Nat) (f : Blk → Blk) : St :=
  { st with blocks := st.blocks.map fun b => if b.id = n then f b else b }

/-- Reset of one block by CodeGenerator.reset_analisys: code objects and all
eight analysis sets are cleared. -/
def resetBlk (b : Blk) : Blk :=
  { b with
      code := []
      rdGen := ∅
      rdKill := ∅
      rdIn := ∅
      rdOut := ∅
      laUse := ∅
      laDef := ∅
      laIn := ∅
      laOut := ∅ }

/-- Label the instructions of one block from a starting counter, producing
the code objects and the next counter value. -/
def labelInsts : Nat → List Inst → List IObj × Nat
  | lbl, [] => ([], lbl)
  | lbl, i :: is' =>
      let rest := labelInsts (lbl + 1) is'
      (mkIObj lbl i :: rest.1, rest.2)

/-- CodeGenerator.instruction_analisys (uc_code.py lines 1109 to 1151):
reset all analysis state, then walk the chain labelling every instruction
with a fresh counter value and attaching def and use sets; block.code_obj
and self.code_obj receive the same objects. -/
def instruction_analisys (blocks : List Blk) : St :=
  let step := fun (acc : List Blk × List IObj × Nat) (b : Blk) =>
    let objs := labelInsts acc.2.2 b.insts
    (acc.1 ++ [{ resetBlk b with code := objs.1 }], acc.2.1 ++ objs.1, objs.2)
  let r := blocks.foldl step ([], [], 0)
  { blocks := r.1, codeObjs := r.2.1 }

/-- The kill set of a defining instruction (uc_code.py line 1196): labels of
every code object with the same def set, minus the own label. -/
def killOf (objs : List IObj) (o : IObj) : Finset Nat :=
  ((objs.filter fun x => x.defS == o.defS).map (·.label)).toFinset \ {o.label}

/-- One step of the block gen and kill fold of reaching_definitions:
skip instructions without a def; otherwise
new_gen = gen_n union (gen minus kill_n), new_kill = kill union kill_n. -/
def rdStepGK (objs : List IObj) (gk : Finset Nat × Finset Nat) (o : IObj) :
    Finset Nat × Finset Nat :=
  match o.defS with
  | none => gk
  | some _ => ({o.label} ∪ (gk.1 \ killOf objs o), gk.2 ∪ killOf objs o)

/-- The gen and kill phase of reaching_definitions applied to one block,
folding the code objects in order onto the existing rd_gen and rd_kill. -/
def rdGenKillBlk (objs : List IObj) (b : Blk) : Blk :=
  let gk := b.code.foldl (rdStepGK objs) (b.rdGen, b.rdKill)
  { b with rdGen := gk.1, rdKill := gk.2 }

/-- The rd_out set of the block with the given id. -/
def outOf (st : St) (p : Nat) : Finset Nat :=
  match st.blk? p with
  | some pb => pb.rdOut
  | none => ∅

/-- Union of the rd_out sets of the predecessors of a block. -/
def predsOut (st : St) (b : Blk) : Finset Nat :=
  b.preds.foldl (fun s p => s ∪ outOf st p) ∅

/-- Append each non-None successor id not already on the worklist
(uc_code.py lines 1223 to 1225). -/
def enqueueSuccs (succs : List (Option Nat)) (wl : List Nat) : List Nat :=
  succs.foldl
    (fun acc s =>
      match s with
      | none => acc
      | some n => if n ∈ acc then acc else acc ++ [n]) wl

/-- The assignments node.rd_in = rd_in and node.rd_out = ... of one loop
iteration. -/
def rdUpd (newIn newOut : Finset Nat) (bb : Blk) : Blk :=
  { bb with rdIn := newIn, rdOut := newOut }

/-- The worklist loop of reaching_definitions (uc_code.py lines 1206 to
1225): pop from the front; in = union of predecessor outs; out = gen union
(in minus kill); when out changed, append the successors.  Fuel bounds the
number of iterations; none models a run that needs more iterations. -/
def rdLoop : Nat → St → List Nat → Option St
  | _, st, [] => some st
  | 0, _, _ :: _ => none
  | fuel + 1, st, n :: rest =>
      match st.blk? n with
      | none => rdLoop fuel st rest
      | some b =>
          let newIn := predsOut st b
          let newOut := b.rdGen ∪ (newIn \ b.rdKill)
          let st' := st.updBlk n (rdUpd newIn newOut)
          let wl' := if newOut = b.rdOut then rest else enqueueSuccs b.succs rest
          rdLoop fuel st' wl'

/-- CodeGenerator.reaching_definitions (uc_code.py lines 1184 to 1225): the
gen and kill fold over every block of the chain, then the worklist loop
started with all blocks in chain order. -/
def reaching_definitions (fuel : Nat) (st : St) : Option St :=
  let st' := { st with blocks := st.blocks.map (rdGenKillBlk st.codeObjs) }
  rdLoop fuel st' (st'.blocks.map (·.id))

/-- One step of the block use and def fold of liveness_analisys:
la_use = use_i union (la_use minus def_i); la_def = def_i union la_def. -/
def laStepUD (ud : Finset Arg × Finset Arg) (o : IObj) :
    Finset Arg × Finset Arg :=
  (o.useS ∪ (ud.1 \ optSet o.defS), optSet o.defS ∪ ud.2)

/-- The use and def phase of liveness_analisys applied to one block, folding
the code objects in reverse onto the existing la_use and la_def. -/
def laUseDefBlk (b : Blk) : Blk :=
  let ud := b.code.reverse.foldl laStepUD (b.laUse, b.laDef)
  { b with laUse := ud.1, laDef := ud.2 }

/-- The seed nodes[-1].la_out = self.global_vars (uc_code.py line 1242). -/
def seedLast (gv : Finset Arg) (bs : List Blk) : List Blk :=
  match bs.getLast? with
  | none => bs
  | some lb => bs.map fun b => if b.id = lb.id then { b with laOut := gv } else b

/-- The la_in set of the block named by an optional successor id. -/
def inOfOpt : St → Option Nat → Finset Arg
  | _, none => ∅
  | st, some n =>
      match st.blk? n with
      | some sb => sb.laIn
      | none => ∅

/-- Union of the la_in sets of the non-None successors of a block. -/
def succsIn (st : St) (b : Blk) : Finset Arg :=
  b.succs.foldl (fun s so => s ∪ inOfOpt st so) ∅

/-- Insert each predecessor id not already on the worklist at the front
(uc_code.py lines 1261 to 1264). -/
def prependPreds (preds : List Nat) (wl : List Nat) : List Nat :=
  preds.foldl (fun acc p => if p ∈ acc then acc else p :: acc) wl

/-- The assignments node.la_out and node.la_in of one loop iteration. -/
def laUpd (newIn newOut : Finset Arg) (bb : Blk) : Blk :=
  { bb with laIn := newIn, laOut := newOut }

/-- The worklist loop of liveness_analisys (uc_code.py lines 1245 to 1264):
pop from the back; la_out grows by the la_in of every successor; la_in is
recomputed as use union (out minus def); when la_in changed, insert the
predecessors at the front. -/
def laLoop : Nat → St → List Nat → Option St
  | _, st, [] => some st
  | 0, _, _ :: _ => none
  | fuel + 1, st, w :: ws =>
      let n := (w :: ws).getLastD w
      let rest := (w :: ws).dropLast
      match st.blk? n with
      | none => laLoop fuel st rest
      | some b =>
          let newOut := b.laOut ∪ succsIn st b
          let newIn := b.laUse ∪ (newOut \ b.laDef)
          let st' := st.updBlk n (laUpd newIn newOut)
          let wl' := if b.laIn = newIn then rest else prependPreds b.preds rest
          laLoop fuel st' wl'

/-- CodeGenerator.liveness_analisys (uc_code.py lines 1227 to 1264): the use
and def fold over every block, the la_out seed of the last chain block with
the global variable names, then the worklist loop started with all blocks in
chain order and popped from the back. -/
def liveness_analisys (fuel : Nat) (gv : Finset Arg) (st : St) : Option St :=
  let st' := { st with blocks := seedLast gv (st.blocks.map laUseDefBlk) }
  laLoop fuel st' (st'.blocks.map (·.id))

/-- Well-formedness of an analysed CFG: distinct block ids, every
predecessor and successor id names a block of the chain, and the
predecessor and successor lists are mutually consistent (lowering maintains
both edge directions). -/
def WF (st : St) : Prop :=
  (st.blocks.map (·.id)).Nodup ∧
  (∀ b ∈ st.blocks, ∀ p ∈ b.preds, ∃ pb ∈ st.blocks, pb.id = p) ∧
  (∀ b ∈ st.blocks, ∀ n : Nat, some n ∈ b.succs → ∃ sb ∈ st.blocks, sb.id = n) ∧
  (∀ b ∈ st.blocks, ∀ p ∈ b.preds, ∀ pb ∈ st.blocks, pb.id = p →
    some b.id ∈ pb.succs) ∧
  (∀ b ∈ st.blocks, ∀ n : Nat, some n ∈ b.succs → ∀ sb ∈ st.blocks,
    sb.id = n → b.id ∈ sb.preds)

/-- The fixed-point equations of reaching definitions at one block. -/
def rdEqns (st : St) (b : Blk) : Prop :=
  b.rdIn = predsOut st b ∧ b.rdOut = b.rdGen ∪ (b.rdIn \ b.rdKill)

/-- The stable state of liveness at one block: la_out already covers every
successor la_in, and la_in satisfies its equation. -/
def laEqns (st : St) (b : Blk) : Prop :=
  succsIn st b ⊆ b.laOut ∧ b.laIn = b.laUse ∪ (b.laOut \ b.laDef)

/-- Mapping a function that fixes every element of a list is the identity. -/
theorem map_eq_self_of {α : Type} (l : List α) (f : α → α)
    (h : ∀ a ∈ l, f a = a) : l.map f = l := by
  rw [List.map_congr_left h]
  simp

/-- Membership after the successor enqueue of the reaching-definitions loop. -/
theorem mem_enqueueSuccs (succs : List (Option Nat)) (wl : List Nat) (a : Nat) :
    a ∈ enqueueSuccs succs wl ↔ a ∈ wl ∨ some a ∈ succs := by
  induction succs generalizing wl with
  | nil => simp [enqueueSuccs]
  | cons s rest ih =>
      cases s with
      | none =>
          rw [show enqueueSuccs (none :: rest) wl = enqueueSuccs rest wl
            from rfl, ih wl]
          simp
      | some n =>
          simp only [enqueueSuccs, List.foldl_cons] at ih ⊢
          by_cases hn : n ∈ wl
          · rw [if_pos hn, ih]
            constructor
            · rintro (h | h)
              · exact Or.inl h
              · exact Or.inr (List.mem_cons_of_mem _ h)
            · rintro (h | h)
              · exact Or.inl h
              · rcases List.mem_cons.1 h with h | h
                · exact Or.inl (Option.some_injective _ h ▸ hn)
                · exact Or.inr h
          · rw [if_neg hn, ih]
            constructor
            · rintro (h | h)
              · rcases List.mem_append.1 h with h | h
                · exact Or.inl h
                · simp at h
                  exact Or.inr (h ▸ List.mem_cons_self _ _)
              · exact Or.inr (List.mem_cons_of_mem _ h)
            · rintro (h | h)
              · exact Or.inl (List.mem_append.2 (Or.inl h))
              · rcases List.mem_cons.1 h with h | h
                · refine Or.inl (List.mem_append.2 (Or.inr ?_))
                  simp [Option.some_injective _ h]
                · exact Or.inr h

/-- Membership after the predecessor prepend of the liveness loop. -/
theorem mem_prependPreds (preds : List Nat) (wl : List Nat) (a : Nat) :
    a ∈ prependPreds preds wl ↔ a ∈ wl ∨ a ∈ preds := by
  induction preds generalizing wl with
  | nil => simp [prependPreds]
  | cons p rest ih =>
      simp only [prependPreds, List.foldl_cons] at ih ⊢
      by_cases hp : p ∈ wl
      · rw [if_pos hp, ih]
        constructor
        · rintro (h | h)
          · exact Or.inl h
          · exact Or.inr (List.mem_cons_of_mem _ h)
        · rintro (h | h)
          · exact Or.inl h
          · rcases List.mem_cons.1 h with h | h
            · exact Or.inl (h ▸ hp)
            · exact Or.inr h
      · rw [if_neg hp, ih]
        constructor
        · rintro (h | h)
          · rcases List.mem_cons.1 h with h | h
            · exact Or.inr (h ▸ List.mem_cons_self _ _)
            · exact Or.inl h
          · exact Or.inr (List.mem_cons_of_mem _ h)
        · rintro (h | h)
          · exact Or.inl (List.mem_cons_of_mem _ h)
          · rcases List.mem_cons.1 h with h | h
            · exact Or.inl (h ▸ List.mem_cons_self _ _)
            · exact Or.inr h

/-- A successful blk? lookup returns a chain member with the requested id. -/
theorem blk?_mem {st : St} {n : Nat} {b : Blk} (h : st.blk? n = some b) :
    b ∈ st.blocks ∧ b.id = n := by
  refine ⟨List.mem_of_find?_eq_some h, ?_⟩
  simpa using List.find?_some h

/-- blk? succeeds when some chain member has the requested id. -/
theorem blk?_isSome {st : St} {n : Nat} (h : ∃ b ∈ st.blocks, b.id = n) :
    ∃ b, st.blk? n = some b := by
  have h2 : (st.blocks.find? fun b => b.id == n).isSome := by
    apply List.find?_isSome.2
    rcases h with ⟨b, hb, hid⟩
    exact ⟨b, hb, by simpa using hid⟩
  rcases Option.isSome_iff_exists.1 h2 with ⟨b, hb⟩
  exact ⟨b, hb⟩

/-- With distinct ids, two chain members sharing an id are one block. -/
theorem id_unique {st : St} (hnd : (st.blocks.map (·.id)).Nodup)
    {b b' : Blk} (hb : b ∈ st.blocks) (hb' : b' ∈ st.blocks)
    (h : b.id = b'.id) : b = b' :=
  List.inj_on_of_nodup_map hnd hb hb' h

/-- find? commutes with a map that does not change the tested predicate. -/
theorem find?_map_pres {α : Type} (l : List α) (g : α → α) (p : α → Bool)
    (h : ∀ a, p (g a) = p a) : (l.map g).find? p = (l.find? p).map g := by
  induction l with
  | nil => rfl
  | cons a l ih =>
      by_cases hp : p a = true
      · rw [List.map_cons, List.find?_cons_of_pos _ (by rw [h a]; exact hp),
          List.find?_cons_of_pos _ hp]
        rfl
      · rw [List.map_cons,
          List.find?_cons_of_neg _ (by simp [h a, hp]),
          List.find?_cons_of_neg _ (by simp [hp]), ih]

/-- Lookup in an updated state. -/
theorem blk?_updBlk (st : St) (n k : Nat) (f : Blk → Blk)
    (hid : ∀ b, (f b).id = b.id) :
    (st.updBlk n f).blk? k
      = (st.blk? k).map fun b => if b.id = n then f b else b := by
  apply find?_map_pres
  intro b
  by_cases h : b.id = n <;> simp [h, hid]

/-- The rd worklist loop changes only rdIn and rdOut of a block. -/
def rdShape (b b' : Blk) : Prop :=
  b' = { b with rdIn := b'.rdIn, rdOut := b'.rdOut }

/-- The liveness worklist loop changes only laIn and laOut of a block. -/
def laShape (b b' : Blk) : Prop :=
  b' = { b with laIn := b'.laIn, laOut := b'.laOut }

theorem rdShape_refl (b : Blk) : rdShape b b := rfl

theorem laShape_refl (b : Blk) : laShape b b := rfl

theorem rdShape_trans {a b c : Blk} (h1 : rdShape a b) (h2 : rdShape b c) :
    rdShape a c := by
  unfold rdShape at *
  rw [h2, h1]

theorem laShape_trans {a b c : Blk} (h1 : laShape a b) (h2 : laShape b c) :
    laShape a c := by
  unfold laShape at *
  rw [h2, h1]

/-- The static data of a block read by WF: id, predecessor list, successor
list. -/
def staticEq (b b' : Blk) : Prop :=
  b'.id = b.id ∧ b'.preds = b.preds ∧ b'.succs = b.succs

theorem rdShape_staticEq {b b' : Blk} (h : rdShape b b') : staticEq b b' := by
  rw [h]
  exact ⟨rfl, rfl, rfl⟩

theorem laShape_staticEq {b b' : Blk} (h : laShape b b') : staticEq b b' := by
  rw [h]
  exact ⟨rfl, rfl, rfl⟩

/-- Ids after mapping a static-preserving function over the chain. -/
theorem ids_staticMap {bs : List Blk} {g : Blk → Blk}
    (hg : ∀ b ∈ bs, staticEq b (g b)) :
    (bs.map g).map (·.id) = bs.map (·.id) := by
  rw [List.map_map]
  apply List.map_congr_left
  intro b hb
  exact (hg b hb).1

/-- WF transfers along a static-preserving map of the chain. -/
theorem WF_staticMap {st st' : St} {g : Blk → Blk}
    (hb : st'.blocks = st.blocks.map g)
    (hg : ∀ b ∈ st.blocks, staticEq b (g b)) (hwf : WF st) : WF st' := by
  obtain ⟨hnd, hpe, hse, hps, hsp⟩ := hwf
  refine ⟨?_, ?_, ?_, ?_, ?_⟩
  · rw [hb, ids_staticMap hg]
    exact hnd
  · intro b hbm p hp
    rw [hb] at hbm
    rcases List.mem_map.1 hbm with ⟨b0, hb0, rfl⟩
    rcases hpe b0 hb0 p (((hg b0 hb0).2.1) ▸ hp) with ⟨pb, hpb, hpbid⟩
    exact ⟨g pb, by rw [hb]; exact List.mem_map_of_mem g hpb,
      by rw [(hg pb hpb).1]; exact hpbid⟩
  · intro b hbm n hn
    rw [hb] at hbm
    rcases List.mem_map.1 hbm with ⟨b0, hb0, rfl⟩
    rcases hse b0 hb0 n (((hg b0 hb0).2.2) ▸ hn) with ⟨sb, hsb, hsbid⟩
    exact ⟨g sb, by rw [hb]; exact List.mem_map_of_mem g hsb,
      by rw [(hg sb hsb).1]; exact hsbid⟩
  · intro b hbm p hp pb hpb hpbid
    rw [hb] at hbm hpb
    rcases List.mem_map.1 hbm with ⟨b0, hb0, rfl⟩
    rcases List.mem_map.1 hpb with ⟨pb0, hpb0, rfl⟩
    have h1 : p ∈ b0.preds := ((hg b0 hb0).2.1) ▸ hp
    have h2 : pb0.id = p := by rw [← (hg pb0 hpb0).1]; exact hpbid
    have h3 := hps b0 hb0 p h1 pb0 hpb0 h2
    rw [(hg pb0 hpb0).2.2, (hg b0 hb0).1]
    exact h3
  · intro b hbm n hn sb hsb hsbid
    rw [hb] at hbm hsb
    rcases List.mem_map.1 hbm with ⟨b0, hb0, rfl⟩
    rcases List.mem_map.1 hsb with ⟨sb0, hsb0, rfl⟩
    have h1 : some n ∈ b0.succs := ((hg b0 hb0).2.2) ▸ hn
    have h2 : sb0.id = n := by rw [← (hg sb0 hsb0).1]; exact hsbid
    have h3 := hsp b0 hb0 n h1 sb0 hsb0 h2
    rw [(hg sb0 hsb0).2.1, (hg b0 hb0).1]
    exact h3

/-- Membership in a fold of unions. -/
theorem mem_foldl_union {α β : Type} [DecidableEq β] (l : List α)
    (f : α → Finset β) :
    ∀ (s : Finset β) (x : β),
      (x ∈ l.foldl (fun acc a => acc ∪ f a) s ↔ x ∈ s ∨ ∃ a ∈ l, x ∈ f a) := by
  induction l with
  | nil => intro s x; simp
  | cons a l ih =>
      intro s x
      rw [List.foldl_cons, ih]
      simp only [Finset.mem_union, List.mem_cons]
      constructor
      · rintro ((h | h) | ⟨c, hc, hx⟩)
        · exact Or.inl h
        · exact Or.inr ⟨a, Or.inl rfl, h⟩
        · exact Or.inr ⟨c, Or.inr hc, hx⟩
      · rintro (h | ⟨c, hc | hc, hx⟩)
        · exact Or.inl (Or.inl h)
        · exact Or.inl (Or.inr (hc ▸ hx))
        · exact Or.inr ⟨c, hc, hx⟩

/-- Congruence for a fold of unions. -/
theorem foldl_union_congr {α β : Type} [DecidableEq β] (l : List α)
    (f g : α → Finset β) (h : ∀ a ∈ l, f a = g a) (s : Finset β) :
    l.foldl (fun acc a => acc ∪ f a) s = l.foldl (fun acc a => acc ∪ g a) s := by
  apply Finset.ext
  intro x
  rw [mem_foldl_union, mem_foldl_union]
  constructor
  · rintro (hx | ⟨a, ha, hx⟩)
    · exact Or.inl hx
    · exact Or.inr ⟨a, ha, h a ha ▸ hx⟩
  · rintro (hx | ⟨a, ha, hx⟩)
    · exact Or.inl hx
    · exact Or.inr ⟨a, ha, (h a ha).symm ▸ hx⟩

/-- Monotonicity of a fold of unions. -/
theorem foldl_union_mono {α β : Type} [DecidableEq β] (l : List α)
    (f g : α → Finset β) (h : ∀ a ∈ l, f a ⊆ g a) {s s' : Finset β}
    (hs : s ⊆ s') :
    l.foldl (fun acc a => acc ∪ f a) s ⊆ l.foldl (fun acc a => acc ∪ g a) s' := by
  intro x hx
  rw [mem_foldl_union] at hx ⊢
  rcases hx with hx | ⟨a, ha, hx⟩
  · exact Or.inl (hs hx)
  · exact Or.inr ⟨a, ha, h a ha hx⟩

/-- The worklist invariants of both loops: every worklist entry names a
block of the chain. -/
def WlOk (st : St) (wl : List Nat) : Prop :=
  ∀ n ∈ wl, ∃ b ∈ st.blocks, b.id = n

/-- The reaching-definitions loop invariant: the equations hold at every
block that is not on the worklist. -/
def RdInv (st : St) (wl : List Nat) : Prop :=
  ∀ b ∈ st.blocks, b.id ∉ wl → rdEqns st b

/-- Effect of one block update on the rd_out lookup. -/
theorem outOf_updBlk (st : St) (n : Nat) (b : Blk) (g : Blk → Blk)
    (hid : ∀ bb, (g bb).id = bb.id) (hfind : st.blk? n = some b) (p : Nat) :
    outOf (st.updBlk n g) p = if p = n then (g b).rdOut else outOf st p := by
  unfold outOf
  rw [blk?_updBlk st n p g hid]
  by_cases hp : p = n
  · subst hp
    rw [hfind]
    have hbid : b.id = p := (blk?_mem hfind).2
    simp [hbid]
  · cases hq : st.blk? p with
    | none => simp [hp]
    | some bb =>
        have hbbid : bb.id = p := (blk?_mem hq).2
        simp [hp, hbbid]

/-- Identity of the chain ids under an id-preserving block update used in
both loops. -/
theorem updFun_id (newIn newOut : Finset Nat) (n : Nat) (bb : Blk) :
    (if bb.id = n then rdUpd newIn newOut bb else bb).id = bb.id := by
  by_cases h : bb.id = n <;> simp [h, rdUpd]

/-- One reaching-definitions iteration preserves well-formedness, worklist
sanity and the loop invariant, changes only rdIn and rdOut, and keeps the
code object list. -/
theorem rdStep_pre (st : St) (n : Nat) (b : Blk) (rest : List Nat)
    (newIn newOut : Finset Nat) (st1 : St) (wl' : List Nat)
    (hwf : WF st) (hok : WlOk st (n :: rest)) (hinv : RdInv st (n :: rest))
    (hfind : st.blk? n = some b)
    (hIn : newIn = predsOut st b)
    (hOut : newOut = b.rdGen ∪ (newIn \ b.rdKill))
    (hst1 : st1 = st.updBlk n (rdUpd newIn newOut))
    (hwl : wl' = if newOut = b.rdOut then rest else enqueueSuccs b.succs rest) :
    WF st1 ∧ WlOk st1 wl' ∧ RdInv st1 wl' ∧
      List.Forall₂ rdShape st.blocks st1.blocks ∧ st1.codeObjs = st.codeObjs := by
  have hbmem : b ∈ st.blocks := (blk?_mem hfind).1
  have hbid : b.id = n := (blk?_mem hfind).2
  have hblocks1 : st1.blocks
      = st.blocks.map (fun bb => if bb.id = n then rdUpd newIn newOut bb else bb) := by
    rw [hst1]; rfl
  have hstatic : ∀ bb ∈ st.blocks,
      staticEq bb (if bb.id = n then rdUpd newIn newOut bb else bb) := by
    intro bb _
    by_cases h : bb.id = n <;> simp [h, rdUpd, staticEq, Blk.succs]
  have hwf1 : WF st1 := WF_staticMap hblocks1 hstatic hwf
  have houtOf : ∀ p, outOf st1 p = if p = n then newOut else outOf st p := by
    intro p
    rw [hst1, outOf_updBlk st n b (rdUpd newIn newOut) (fun _ => rfl) hfind p]
    rfl
  have houtn : outOf st n = b.rdOut := by
    unfold outOf
    rw [hfind]
  -- membership transfer for worklist sanity
  have hexists : ∀ k : Nat, (∃ bb ∈ st.blocks, bb.id = k) →
      ∃ bb ∈ st1.blocks, bb.id = k := by
    intro k ⟨bb, hbb, hbbid⟩
    refine ⟨if bb.id = n then rdUpd newIn newOut bb else bb, ?_, ?_⟩
    · rw [hblocks1]
      exact List.mem_map_of_mem _ hbb
    · rw [updFun_id]
      exact hbbid
  have hok1 : WlOk st1 wl' := by
    intro k hk
    rw [hwl] at hk
    by_cases hchange : newOut = b.rdOut
    · rw [if_pos hchange] at hk
      exact hexists k (hok k (List.mem_cons_of_mem n hk))
    · rw [if_neg hchange] at hk
      rcases (mem_enqueueSuccs b.succs rest k).1 hk with hk | hk
      · exact hexists k (hok k (List.mem_cons_of_mem n hk))
      · exact hexists k (hwf.2.2.1 b hbmem k hk)
  -- the invariant after the step
  have hinv1 : RdInv st1 wl' := by
    intro b' hb' hnot
    rw [hblocks1] at hb'
    rcases List.mem_map.1 hb' with ⟨b0, hb0, rfl⟩
    by_cases hb0n : b0.id = n
    · -- the processed block itself
      have hb0b : b0 = b := id_unique hwf.1 hb0 hbmem (hb0n.trans hbid.symm)
      subst hb0b
      rw [if_pos hb0n] at hnot ⊢
      have hcongr : ∀ p ∈ (rdUpd newIn newOut b0).preds,
          outOf st1 p = outOf st p := by
        intro p hp
        rw [houtOf p]
        by_cases hpn : p = n
        · subst hpn
          rw [houtn]
          by_cases hchange : newOut = b0.rdOut
          · rw [if_pos rfl, hchange]
          · exfalso
            apply hnot
            rw [hwl, if_neg hchange]
            have hsucc : some (rdUpd newIn newOut b0).id ∈ b0.succs := by
              have := hwf.2.2.2.1 b0 hb0 p hp b0 hb0 (hb0n)
              simpa [rdUpd] using this
            apply (mem_enqueueSuccs b0.succs rest _).2
            exact Or.inr hsucc
        · rw [if_neg hpn]
      constructor
      · show (rdUpd newIn newOut b0).rdIn = predsOut st1 (rdUpd newIn newOut b0)
        have : predsOut st1 (rdUpd newIn newOut b0)
            = predsOut st b0 := by
          unfold predsOut
          have hpreds : (rdUpd newIn newOut b0).preds = b0.preds := rfl
          rw [hpreds]
          exact foldl_union_congr b0.preds _ _
            (fun p hp => hcongr p hp) ∅
        rw [this]
        exact hIn
      · show (rdUpd newIn newOut b0).rdOut
          = (rdUpd newIn newOut b0).rdGen
            ∪ ((rdUpd newIn newOut b0).rdIn \ (rdUpd newIn newOut b0).rdKill)
        exact hOut
    · -- an untouched block
      rw [if_neg hb0n] at hnot ⊢
      have hb0rest : b0.id ∉ rest := by
        intro hmem
        apply hnot
        rw [hwl]
        by_cases hchange : newOut = b.rdOut
        · rw [if_pos hchange]; exact hmem
        · rw [if_neg hchange]
          exact (mem_enqueueSuccs b.succs rest _).2 (Or.inl hmem)
      have hb0wl : b0.id ∉ n :: rest := by
        intro hmem
        rcases List.mem_cons.1 hmem with h | h
        · exact hb0n h
        · exact hb0rest h
      have heq := hinv b0 hb0 hb0wl
      constructor
      · have hcongr : ∀ p ∈ b0.preds, outOf st1 p = outOf st p := by
          intro p hp
          rw [houtOf p]
          by_cases hpn : p = n
          · subst hpn
            rw [houtn]
            by_cases hchange : newOut = b.rdOut
            · rw [if_pos rfl, hchange]
            · exfalso
              apply hnot
              rw [hwl, if_neg hchange]
              have hsucc : some b0.id ∈ b.succs :=
                hwf.2.2.2.1 b0 hb0 p hp b hbmem hbid
              exact (mem_enqueueSuccs b.succs rest _).2 (Or.inr hsucc)
          · rw [if_neg hpn]
        show b0.rdIn = predsOut st1 b0
        unfold predsOut
        rw [foldl_union_congr b0.preds _ _ (fun p hp => hcongr p hp) ∅]
        exact heq.1
      · exact heq.2
  refine ⟨hwf1, hok1, hinv1, ?_, by rw [hst1]; rfl⟩
  rw [hblocks1]
  apply List.forall₂_map_right_iff.2
  apply List.forall₂_same.2
  intro bb _
  by_cases h : bb.id = n
  · rw [if_pos h]
    show rdUpd newIn newOut bb = _
    rfl
  · rw [if_neg h]
    exact rdShape_refl bb

/-- Composition of pointwise relations along lists. -/
theorem forall₂_trans_of {α : Type} {r : α → α → Prop}
    (ht : ∀ a b c, r a b → r b c → r a c) :
    ∀ {l1 l2 l3 : List α}, List.Forall₂ r l1 l2 → List.Forall₂ r l2 l3 →
      List.Forall₂ r l1 l3 := by
  intro l1 l2 l3 h1
  induction h1 generalizing l3 with
  | nil =>
      intro h2
      cases h2
      exact List.Forall₂.nil
  | cons hab h ihh =>
      intro h2
      cases h2 with
      | cons hbc h2' => exact List.Forall₂.cons (ht _ _ _ hab hbc) (ihh h2')

/-- The reaching-definitions worklist loop: on success the fixed-point
equations hold at every block, only rdIn and rdOut changed, and the code
objects are untouched. -/
theorem rdLoop_spec : ∀ (f : Nat) (st : St) (wl : List Nat) (st' : St),
    WF st → WlOk st wl → RdInv st wl → rdLoop f st wl = some st' →
    List.Forall₂ rdShape st.blocks st'.blocks ∧ st'.codeObjs = st.codeObjs ∧
      ∀ b ∈ st'.blocks, rdEqns st' b := by
  intro f
  induction f with
  | zero =>
      intro st wl st' hwf hok hinv hrun
      cases wl with
      | nil =>
          obtain rfl : st = st' := Option.some.inj hrun
          exact ⟨List.forall₂_same.2 fun b _ => rdShape_refl b, rfl,
            fun b hb => hinv b hb (by simp)⟩
      | cons n rest => simp [rdLoop] at hrun
  | succ f ih =>
      intro st wl st' hwf hok hinv hrun
      cases wl with
      | nil =>
          obtain rfl : st = st' := Option.some.inj hrun
          exact ⟨List.forall₂_same.2 fun b _ => rdShape_refl b, rfl,
            fun b hb => hinv b hb (by simp)⟩
      | cons n rest =>
          simp only [rdLoop] at hrun
          cases hfind : st.blk? n with
          | none =>
              exfalso
              rcases blk?_isSome (hok n (List.mem_cons_self n rest)) with ⟨b, hb⟩
              rw [hfind] at hb
              cases hb
          | some b =>
              rw [hfind] at hrun
              obtain ⟨hwf1, hok1, hinv1, hsh1, hco1⟩ :=
                rdStep_pre st n b rest (predsOut st b)
                  (b.rdGen ∪ (predsOut st b \ b.rdKill))
                  (st.updBlk n (rdUpd (predsOut st b)
                    (b.rdGen ∪ (predsOut st b \ b.rdKill))))
                  (if b.rdGen ∪ (predsOut st b \ b.rdKill) = b.rdOut then rest
                   else enqueueSuccs b.succs rest)
                  hwf hok hinv hfind rfl rfl rfl rfl
              obtain ⟨hsh2, hco2, heq2⟩ := ih _ _ _ hwf1 hok1 hinv1 hrun
              exact ⟨@forall₂_trans_of Blk rdShape (fun _ _ _ hab hbc => rdShape_trans hab hbc) _ _ _ hsh1 hsh2,
                hco2.trans hco1, heq2⟩

/-- When the equations already hold everywhere, the reaching-definitions
loop consumes its worklist without changing the state. -/
theorem rdLoop_stable : ∀ (wl : List Nat) (f : Nat) (st : St),
    (st.blocks.map (·.id)).Nodup → WlOk st wl →
    (∀ b ∈ st.blocks, rdEqns st b) → wl.length ≤ f →
    rdLoop f st wl = some st := by
  intro wl
  induction wl with
  | nil =>
      intro f st _ _ _ _
      cases f <;> rfl
  | cons n rest ih =>
      intro f st hnd hok heq hf
      cases f with
      | zero => simp at hf
      | succ f =>
          obtain ⟨b, hfind⟩ := blk?_isSome (hok n (List.mem_cons_self n rest))
          have hbmem := (blk?_mem hfind).1
          have hbid := (blk?_mem hfind).2
          have heqb := heq b hbmem
          have hIn : predsOut st b = b.rdIn := (heqb.1).symm
          have hOut : b.rdGen ∪ (predsOut st b \ b.rdKill) = b.rdOut := by
            rw [hIn]
            exact heqb.2.symm
          have hupd : st.updBlk n (rdUpd (predsOut st b)
              (b.rdGen ∪ (predsOut st b \ b.rdKill))) = st := by
            unfold St.updBlk
            rw [map_eq_self_of]
            · intro bb hbb
              by_cases h : bb.id = n
              · rw [if_pos h]
                have hbbb : bb = b := id_unique hnd hbb hbmem (h.trans hbid.symm)
                subst hbbb
                unfold rdUpd
                rw [hIn, ← heqb.2]
              · rw [if_neg h]
          simp only [rdLoop]
          rw [hfind]
          simp only [hupd, if_pos hOut]
          exact ih f st hnd (fun k hk => hok k (List.mem_cons_of_mem n hk)) heq
            (by simpa using Nat.le_of_succ_le_succ hf)

/-- Closed form of the gen and kill fold: folding from any start equals the
fold from empty sets plus the surviving part of the start. -/
theorem rdFoldGK (objs : List IObj) (code : List IObj) :
    ∀ (g0 k0 : Finset Nat),
      code.foldl (rdStepGK objs) (g0, k0)
        = ((code.foldl (rdStepGK objs) (∅, ∅)).1
            ∪ (g0 \ (code.foldl (rdStepGK objs) (∅, ∅)).2),
           k0 ∪ (code.foldl (rdStepGK objs) (∅, ∅)).2) := by
  induction code with
  | nil =>
      intro g0 k0
      simp
  | cons o code ih =>
      intro g0 k0
      rw [List.foldl_cons, List.foldl_cons]
      cases hdef : o.defS with
      | none =>
          rw [show rdStepGK objs (g0, k0) o = (g0, k0) by
            simp [rdStepGK, hdef]]
          rw [show rdStepGK objs (∅, ∅) o = ((∅ : Finset Nat), (∅ : Finset Nat)) by
            simp [rdStepGK, hdef]]
          exact ih g0 k0
      | some a =>
          rw [show rdStepGK objs (g0, k0) o
              = ({o.label} ∪ (g0 \ killOf objs o), k0 ∪ killOf objs o) by
            simp [rdStepGK, hdef]]
          rw [show rdStepGK objs (∅, ∅) o
              = ({o.label} ∪ ((∅ : Finset Nat) \ killOf objs o),
                 (∅ : Finset Nat) ∪ killOf objs o) by
            simp [rdStepGK, hdef]]
          rw [ih ({o.label} ∪ (g0 \ killOf objs o)) (k0 ∪ killOf objs o),
            ih ({o.label} ∪ ((∅ : Finset Nat) \ killOf objs o))
              ((∅ : Finset Nat) ∪ killOf objs o)]
          simp only [Prod.mk.injEq]
          constructor
          · ext x
            simp only [Finset.mem_union, Finset.mem_sdiff, Finset.mem_singleton,
              Finset.not_mem_empty, false_or, or_false, false_and]
            tauto
          · ext x
            simp only [Finset.mem_union, Finset.not_mem_empty, false_or]
            tauto

/-- The gen and kill fold is idempotent. -/
theorem rdFoldGK_idem (objs : List IObj) (code : List IObj)
    (g0 k0 : Finset Nat) :
    code.foldl (rdStepGK objs) (code.foldl (rdStepGK objs) (g0, k0))
      = code.foldl (rdStepGK objs) (g0, k0) := by
  rw [show code.foldl (rdStepGK objs) (g0, k0)
      = ((code.foldl (rdStepGK objs) (g0, k0)).1,
         (code.foldl (rdStepGK objs) (g0, k0)).2) from rfl,
    rdFoldGK objs code g0 k0]
  rw [rdFoldGK objs code
    ((code.foldl (rdStepGK objs) (∅, ∅)).1
      ∪ (g0 \ (code.foldl (rdStepGK objs) (∅, ∅)).2))
    (k0 ∪ (code.foldl (rdStepGK objs) (∅, ∅)).2)]
  simp only [Prod.mk.injEq]
  constructor
  · ext x
    simp only [Finset.mem_union, Finset.mem_sdiff]
    tauto
  · ext x
    simp only [Finset.mem_union]
    tauto

/-- A block whose rdGen and rdKill already arose from the gen and kill fold
over its code is left unchanged by a repeated fold. -/
theorem rdGenKillBlk_stable (objs : List IObj) (b' : Blk) (x y : Finset Nat)
    (h : (b'.rdGen, b'.rdKill) = b'.code.foldl (rdStepGK objs) (x, y)) :
    rdGenKillBlk objs b' = b' := by
  unfold rdGenKillBlk
  have h2 : b'.code.foldl (rdStepGK objs) (b'.rdGen, b'.rdKill)
      = (b'.rdGen, b'.rdKill) := by
    rw [h]
    exact rdFoldGK_idem objs b'.code x y
  rw [h2]

/-- Closed form of the use and def fold of liveness. -/
theorem laFoldUD (code : List IObj) :
    ∀ (u0 d0 : Finset Arg),
      code.foldl laStepUD (u0, d0)
        = ((code.foldl laStepUD (∅, ∅)).1
            ∪ (u0 \ (code.foldl laStepUD (∅, ∅)).2),
           (code.foldl laStepUD (∅, ∅)).2 ∪ d0) := by
  induction code with
  | nil =>
      intro u0 d0
      simp
  | cons o code ih =>
      intro u0 d0
      rw [List.foldl_cons, List.foldl_cons]
      rw [show laStepUD (u0, d0) o
          = (o.useS ∪ (u0 \ optSet o.defS), optSet o.defS ∪ d0) from rfl]
      rw [show laStepUD (∅, ∅) o
          = (o.useS ∪ ((∅ : Finset Arg) \ optSet o.defS),
             optSet o.defS ∪ (∅ : Finset Arg)) from rfl]
      rw [ih (o.useS ∪ (u0 \ optSet o.defS)) (optSet o.defS ∪ d0),
        ih (o.useS ∪ ((∅ : Finset Arg) \ optSet o.defS))
          (optSet o.defS ∪ (∅ : Finset Arg))]
      simp only [Prod.mk.injEq]
      constructor
      · ext x
        simp only [Finset.mem_union, Finset.mem_sdiff, Finset.not_mem_empty,
          false_and, or_false, false_or]
        tauto
      · ext x
        simp only [Finset.mem_union, Finset.not_mem_empty, or_false]
        tauto

/-- The use and def fold of liveness is idempotent. -/
theorem laFoldUD_idem (code : List IObj) (u0 d0 : Finset Arg) :
    code.foldl laStepUD (code.foldl laStepUD (u0, d0))
      = code.foldl laStepUD (u0, d0) := by
  rw [show code.foldl laStepUD (u0, d0)
      = ((code.foldl laStepUD (u0, d0)).1,
         (code.foldl laStepUD (u0, d0)).2) from rfl,
    laFoldUD code u0 d0]
  rw [laFoldUD code
    ((code.foldl laStepUD (∅, ∅)).1 ∪ (u0 \ (code.foldl laStepUD (∅, ∅)).2))
    ((code.foldl laStepUD (∅, ∅)).2 ∪ d0)]
  simp only [Prod.mk.injEq]
  constructor
  · ext x
    simp only [Finset.mem_union, Finset.mem_sdiff]
    tauto
  · ext x
    simp only [Finset.mem_union]
    tauto

/-- A block whose laUse and laDef already arose from the use and def fold
over its reversed code is left unchanged by a repeated fold. -/
theorem laUseDefBlk_stable (b' : Blk) (x y : Finset Arg)
    (h : (b'.laUse, b'.laDef) = b'.code.reverse.foldl laStepUD (x, y)) :
    laUseDefBlk b' = b' := by
  unfold laUseDefBlk
  have h2 : b'.code.reverse.foldl laStepUD (b'.laUse, b'.laDef)
      = (b'.laUse, b'.laDef) := by
    rw [h]
    exact laFoldUD_idem b'.code.reverse x y
  rw [h2]

/-- A map that is constant along a pointwise relation. -/
theorem forall₂_map_eq {α β : Type} {r : α → α → Prop} {g : α → β}
    (hg : ∀ a b, r a b → g b = g a) :
    ∀ {l l' : List α}, List.Forall₂ r l l' → l'.map g = l.map g := by
  intro l l' h
  induction h with
  | nil => rfl
  | cons hab h ihh => simp [ihh, hg _ _ hab]

/-- Every member of the right list of a Forall₂ has a related partner. -/
theorem forall₂_mem_right {α β : Type} {r : α → β → Prop} :
    ∀ {l : List α} {l' : List β}, List.Forall₂ r l l' →
      ∀ b ∈ l', ∃ a ∈ l, r a b := by
  intro l l' h
  induction h with
  | nil => intro b hb; cases hb
  | cons hab h ihh =>
      intro b hb
      rcases List.mem_cons.1 hb with rfl | hb
      · exact ⟨_, List.mem_cons_self _ _, hab⟩
      · rcases ihh b hb with ⟨a, ha, hr⟩
        exact ⟨a, List.mem_cons_of_mem _ ha, hr⟩

/-- The worklist holding every chain id is sane. -/
theorem WlOk_ids (st : St) : WlOk st (st.blocks.map (·.id)) := by
  intro n hn
  rcases List.mem_map.1 hn with ⟨b, hb, rfl⟩
  exact ⟨b, hb, rfl⟩

/-- Idempotence of reaching definitions: a second run on the result of a
successful run returns the result unchanged. -/
theorem reaching_definitions_idem (st st' : St) (f1 f2 : Nat)
    (hwf : WF st)
    (h1 : reaching_definitions f1 st = some st')
    (hf2 : st'.blocks.length ≤ f2) :
    reaching_definitions f2 st' = some st' := by
  have h1' : rdLoop f1
      ({ st with blocks := st.blocks.map (rdGenKillBlk st.codeObjs) })
      (({ st with blocks := st.blocks.map (rdGenKillBlk st.codeObjs) }
        : St).blocks.map (·.id)) = some st' := h1
  have hstatic : ∀ b ∈ st.blocks, staticEq b (rdGenKillBlk st.codeObjs b) := by
    intro b _
    exact ⟨rfl, rfl, rfl⟩
  have hwf1 : WF ({ st with blocks := st.blocks.map (rdGenKillBlk st.codeObjs) }) :=
    WF_staticMap rfl hstatic hwf
  obtain ⟨hsh, hco, heqs⟩ :=
    rdLoop_spec f1 _ _ st' hwf1 (WlOk_ids _)
      (by
        intro b hb hnot
        exfalso
        exact hnot (List.mem_map_of_mem _ hb))
      h1'
  have hco' : st'.codeObjs = st.codeObjs := hco
  have hids : st'.blocks.map (·.id)
      = ({ st with blocks := st.blocks.map (rdGenKillBlk st.codeObjs) }
        : St).blocks.map (·.id) :=
    forall₂_map_eq (fun a b hab => by rw [hab]) hsh
  have hids2 : st'.blocks.map (·.id) = st.blocks.map (·.id) := by
    rw [hids]
    exact ids_staticMap hstatic
  have hnd' : (st'.blocks.map (·.id)).Nodup := by
    rw [hids2]
    exact hwf.1
  have hmapeq : st'.blocks.map (rdGenKillBlk st'.codeObjs) = st'.blocks := by
    apply map_eq_self_of
    intro b' hb'
    rcases forall₂_mem_right hsh b' hb' with ⟨b1, hb1, hshape⟩
    rcases List.mem_map.1 hb1 with ⟨b0, hb0, rfl⟩
    have hcode : b'.code = b0.code := by
      rw [hshape]
      rfl
    have hgen : b'.rdGen
        = (b0.code.foldl (rdStepGK st.codeObjs) (b0.rdGen, b0.rdKill)).1 := by
      rw [hshape]
      rfl
    have hkill : b'.rdKill
        = (b0.code.foldl (rdStepGK st.codeObjs) (b0.rdGen, b0.rdKill)).2 := by
      rw [hshape]
      rfl
    rw [hco']
    apply rdGenKillBlk_stable st.codeObjs b' b0.rdGen b0.rdKill
    rw [hgen, hkill, hcode]
  have hphase : ({ st' with blocks := st'.blocks.map (rdGenKillBlk st'.codeObjs) }
      : St) = st' := by
    rw [hmapeq]
  show rdLoop f2
    ({ st' with blocks := st'.blocks.map (rdGenKillBlk st'.codeObjs) })
    (({ st' with blocks := st'.blocks.map (rdGenKillBlk st'.codeObjs) }
      : St).blocks.map (·.id)) = some st'
  rw [hphase]
  apply rdLoop_stable _ f2 st' hnd' (WlOk_ids st') heqs
  simpa using hf2

/-- The liveness loop invariant: the stable equations hold off-worklist. -/
def LaInv1 (st : St) (wl : List Nat) : Prop :=
  ∀ b ∈ st.blocks, b.id ∉ wl → laEqns st b

/-- la_out never exceeds its seed together with the successor la_in sets. -/
def LaInv2 (base : Nat → Finset Arg) (st : St) : Prop :=
  ∀ b ∈ st.blocks, b.laOut ⊆ base b.id ∪ succsIn st b

/-- la_in never exceeds its equation right-hand side. -/
def LaInv3 (st : St) : Prop :=
  ∀ b ∈ st.blocks, b.laIn ⊆ b.laUse ∪ (b.laOut \ b.laDef)

/-- la_out always contains its seed. -/
def LaInv4 (base : Nat → Finset Arg) (st : St) : Prop :=
  ∀ b ∈ st.blocks, base b.id ⊆ b.laOut

/-- Effect of one block update on the la_in lookup. -/
theorem inOfOpt_updBlk (st : St) (n : Nat) (b : Blk) (g : Blk → Blk)
    (hid : ∀ bb, (g bb).id = bb.id) (hfind : st.blk? n = some b)
    (so : Option Nat) :
    inOfOpt (st.updBlk n g) so
      = if so = some n then (g b).laIn else inOfOpt st so := by
  cases so with
  | none => simp [inOfOpt]
  | some k =>
      simp only [inOfOpt]
      rw [blk?_updBlk st n k g hid]
      by_cases hk : k = n
      · subst hk
        rw [hfind]
        have hbid : b.id = k := (blk?_mem hfind).2
        simp [hbid]
      · cases hq : st.blk? k with
        | none => simp [hk]
        | some bb =>
            have hbbid : bb.id = k := (blk?_mem hq).2
            simp [hk, hbbid]

/-- One liveness iteration preserves well-formedness, worklist sanity and
all four loop invariants, changes only laIn and laOut, and keeps the code
object list. -/
theorem laStep_pre (st : St) (n : Nat) (b : Blk) (rest wl : List Nat)
    (base : Nat → Finset Arg) (newIn newOut : Finset Arg) (st1 : St)
    (wl' : List Nat)
    (hwf : WF st) (hok : WlOk st wl) (hinv1 : LaInv1 st wl)
    (hinv2 : LaInv2 base st) (hinv3 : LaInv3 st) (hinv4 : LaInv4 base st)
    (hfind : st.blk? n = some b)
    (hwlmem : ∀ k, k ∈ wl ↔ k ∈ rest ∨ k = n)
    (hOut : newOut = b.laOut ∪ succsIn st b)
    (hIn : newIn = b.laUse ∪ (newOut \ b.laDef))
    (hst1 : st1 = st.updBlk n (laUpd newIn newOut))
    (hwl : wl' = if b.laIn = newIn then rest else prependPreds b.preds rest) :
    WF st1 ∧ WlOk st1 wl' ∧ LaInv1 st1 wl' ∧ LaInv2 base st1 ∧ LaInv3 st1 ∧
      LaInv4 base st1 ∧ List.Forall₂ laShape st.blocks st1.blocks ∧
      st1.codeObjs = st.codeObjs := by
  have hbmem : b ∈ st.blocks := (blk?_mem hfind).1
  have hbid : b.id = n := (blk?_mem hfind).2
  have hblocks1 : st1.blocks
      = st.blocks.map (fun bb => if bb.id = n then laUpd newIn newOut bb else bb) := by
    rw [hst1]; rfl
  have hstatic : ∀ bb ∈ st.blocks,
      staticEq bb (if bb.id = n then laUpd newIn newOut bb else bb) := by
    intro bb _
    by_cases h : bb.id = n <;> simp [h, laUpd, staticEq, Blk.succs]
  have hwf1 : WF st1 := WF_staticMap hblocks1 hstatic hwf
  have hinOf : ∀ so, inOfOpt st1 so
      = if so = some n then newIn else inOfOpt st so := by
    intro so
    rw [hst1, inOfOpt_updBlk st n b (laUpd newIn newOut) (fun _ => rfl) hfind so]
    rfl
  have hinn : inOfOpt st (some n) = b.laIn := by
    simp only [inOfOpt]
    rw [hfind]
  have hmono_in : b.laIn ⊆ newIn := by
    rw [hIn]
    intro x hx
    have hx2 := hinv3 b hbmem hx
    rcases Finset.mem_union.1 hx2 with hx2 | hx2
    · exact Finset.mem_union_left _ hx2
    · refine Finset.mem_union_right _ ?_
      rcases Finset.mem_sdiff.1 hx2 with ⟨hx3, hx4⟩
      exact Finset.mem_sdiff.2 ⟨by rw [hOut]; exact Finset.mem_union_left _ hx3, hx4⟩
  have hinOf_mono : ∀ so, inOfOpt st so ⊆ inOfOpt st1 so := by
    intro so
    rw [hinOf so]
    by_cases h : so = some n
    · rw [if_pos h, h, hinn]
      exact hmono_in
    · rw [if_neg h]
  have hsuccsIn_mono : ∀ (x : Blk), succsIn st x ⊆ succsIn st1 x := by
    intro x
    exact foldl_union_mono x.succs _ _ (fun so _ => hinOf_mono so)
      (Finset.Subset.refl ∅)
  have hexists : ∀ k : Nat, (∃ bb ∈ st.blocks, bb.id = k) →
      ∃ bb ∈ st1.blocks, bb.id = k := by
    intro k ⟨bb, hbb, hbbid⟩
    refine ⟨if bb.id = n then laUpd newIn newOut bb else bb, ?_, ?_⟩
    · rw [hblocks1]
      exact List.mem_map_of_mem _ hbb
    · by_cases h : bb.id = n
      · rw [if_pos h]
        exact hbbid
      · rw [if_neg h]
        exact hbbid
  have hok1 : WlOk st1 wl' := by
    intro k hk
    rw [hwl] at hk
    by_cases hchange : b.laIn = newIn
    · rw [if_pos hchange] at hk
      exact hexists k (hok k ((hwlmem k).2 (Or.inl hk)))
    · rw [if_neg hchange] at hk
      rcases (mem_prependPreds b.preds rest k).1 hk with hk | hk
      · exact hexists k (hok k ((hwlmem k).2 (Or.inl hk)))
      · exact hexists k (hwf.2.1 b hbmem k hk)
  -- decompose the members of the updated chain
  have hmem1 : ∀ b' ∈ st1.blocks, ∃ b0 ∈ st.blocks,
      b' = if b0.id = n then laUpd newIn newOut b0 else b0 := by
    intro b' hb'
    rw [hblocks1] at hb'
    rcases List.mem_map.1 hb' with ⟨b0, hb0, heq⟩
    exact ⟨b0, hb0, heq.symm⟩
  have hinv3' : LaInv3 st1 := by
    intro b' hb'
    rcases hmem1 b' hb' with ⟨b0, hb0, rfl⟩
    by_cases h : b0.id = n
    · rw [if_pos h]
      show newIn ⊆ b0.laUse ∪ (newOut \ b0.laDef)
      have hb0b : b0 = b := id_unique hwf.1 hb0 hbmem (h.trans hbid.symm)
      subst hb0b
      rw [hIn]
    · rw [if_neg h]
      exact hinv3 b0 hb0
  have hinv4' : LaInv4 base st1 := by
    intro b' hb'
    rcases hmem1 b' hb' with ⟨b0, hb0, rfl⟩
    by_cases h : b0.id = n
    · rw [if_pos h]
      show base (laUpd newIn newOut b0).id ⊆ newOut
      have hb0b : b0 = b := id_unique hwf.1 hb0 hbmem (h.trans hbid.symm)
      subst hb0b
      intro x hx
      rw [hOut]
      exact Finset.mem_union_left _ (hinv4 b0 hb0 hx)
    · rw [if_neg h]
      exact hinv4 b0 hb0
  have hinv2' : LaInv2 base st1 := by
    intro b' hb'
    rcases hmem1 b' hb' with ⟨b0, hb0, rfl⟩
    by_cases h : b0.id = n
    · rw [if_pos h]
      have hb0b : b0 = b := id_unique hwf.1 hb0 hbmem (h.trans hbid.symm)
      subst hb0b
      show newOut ⊆ base (laUpd newIn newOut b0).id ∪ succsIn st1 (laUpd newIn newOut b0)
      have hsuccs : succsIn st1 (laUpd newIn newOut b0) = succsIn st1 b0 := rfl
      rw [hsuccs]
      intro x hx
      rw [hOut] at hx
      rcases Finset.mem_union.1 hx with hx | hx
      · rcases Finset.mem_union.1 (hinv2 b0 hb0 hx) with hx2 | hx2
        · exact Finset.mem_union_left _ hx2
        · exact Finset.mem_union_right _ (hsuccsIn_mono b0 hx2)
      · exact Finset.mem_union_right _ (hsuccsIn_mono b0 hx)
    · rw [if_neg h]
      intro x hx
      rcases Finset.mem_union.1 (hinv2 b0 hb0 hx) with hx2 | hx2
      · exact Finset.mem_union_left _ hx2
      · exact Finset.mem_union_right _ (hsuccsIn_mono b0 hx2)
  have hinv1' : LaInv1 st1 wl' := by
    intro b' hb' hnot
    rcases hmem1 b' hb' with ⟨b0, hb0, rfl⟩
    by_cases h : b0.id = n
    · rw [if_pos h] at hnot ⊢
      have hb0b : b0 = b := id_unique hwf.1 hb0 hbmem (h.trans hbid.symm)
      subst hb0b
      have hnid : (laUpd newIn newOut b0).id = n := h
      have hsame : succsIn st1 (laUpd newIn newOut b0) = succsIn st b0 := by
        have hsuccs : succsIn st1 (laUpd newIn newOut b0) = succsIn st1 b0 := rfl
        rw [hsuccs]
        unfold succsIn
        apply foldl_union_congr
        intro so hso
        rw [hinOf so]
        by_cases hson : so = some n
        · subst hson
          rw [if_pos rfl, hinn]
          by_cases hchange : b0.laIn = newIn
          · exact hchange.symm
          · exfalso
            apply hnot
            rw [hwl, if_neg hchange]
            apply (mem_prependPreds b0.preds rest _).2
            have hpred : b0.id ∈ b0.preds :=
              hwf.2.2.2.2 b0 hb0 n hso b0 hb0 hbid
            rw [hnid, ← hbid]
            exact Or.inr hpred
        · rw [if_neg hson]
      constructor
      · show succsIn st1 (laUpd newIn newOut b0) ⊆ newOut
        rw [hsame, hOut]
        intro x hx
        exact Finset.mem_union_right _ hx
      · show newIn = (laUpd newIn newOut b0).laUse
          ∪ (newOut \ (laUpd newIn newOut b0).laDef)
        exact hIn
    · rw [if_neg h] at hnot ⊢
      have hb0rest : b0.id ∉ rest := by
        intro hmem
        apply hnot
        rw [hwl]
        by_cases hchange : b.laIn = newIn
        · rw [if_pos hchange]
          exact hmem
        · rw [if_neg hchange]
          exact (mem_prependPreds b.preds rest _).2 (Or.inl hmem)
      have hb0wl : b0.id ∉ wl := by
        intro hmem
        rcases (hwlmem b0.id).1 hmem with hmem | hmem
        · exact hb0rest hmem
        · exact h hmem
      have heqb := hinv1 b0 hb0 hb0wl
      have hsame : succsIn st1 b0 = succsIn st b0 := by
        unfold succsIn
        apply foldl_union_congr
        intro so hso
        rw [hinOf so]
        by_cases hson : so = some n
        · subst hson
          by_cases hchange : b.laIn = newIn
          · rw [if_pos rfl, ← hchange, ← hinn]
          · exfalso
            apply hnot
            rw [hwl, if_neg hchange]
            apply (mem_prependPreds b.preds rest _).2
            exact Or.inr (hwf.2.2.2.2 b0 hb0 n hso b hbmem hbid)
        · rw [if_neg hson]
      exact ⟨by rw [hsame]; exact heqb.1, heqb.2⟩
  refine ⟨hwf1, hok1, hinv1', hinv2', hinv3', hinv4', ?_, by rw [hst1]; rfl⟩
  rw [hblocks1]
  apply List.forall₂_map_right_iff.2
  apply List.forall₂_same.2
  intro bb _
  by_cases h : bb.id = n
  · rw [if_pos h]
    show laUpd newIn newOut bb = _
    rfl
  · rw [if_neg h]
    exact laShape_refl bb

/-- The default-valued last element of a nonempty list is its last element. -/
theorem getLastD_cons_eq (w : Nat) (ws : List Nat) :
    (w :: ws).getLastD w = (w :: ws).getLast (by simp) := by
  rw [List.getLastD_eq_getLast?, List.getLast?_eq_getLast (w :: ws) (by simp)]
  rfl

/-- Decomposition of a nonempty worklist into its front and popped back. -/
theorem wl_decomp (w : Nat) (ws : List Nat) (k : Nat) :
    k ∈ w :: ws ↔ k ∈ (w :: ws).dropLast ∨ k = (w :: ws).getLastD w := by
  conv_lhs => rw [← @List.dropLast_append_getLast _ (w :: ws) (by simp)]
  rw [List.mem_append, List.mem_singleton, getLastD_cons_eq]

/-- The liveness worklist loop: on success the stable equations hold at
every block, la_out is exactly its seed joined with the successor la_in
sets, only laIn and laOut changed, and the code objects are untouched. -/
theorem laLoop_spec : ∀ (f : Nat) (st : St) (wl : List Nat) (st' : St)
    (base : Nat → Finset Arg),
    WF st → WlOk st wl → LaInv1 st wl → LaInv2 base st → LaInv3 st →
    LaInv4 base st → laLoop f st wl = some st' →
    List.Forall₂ laShape st.blocks st'.blocks ∧ st'.codeObjs = st.codeObjs ∧
      ∀ b ∈ st'.blocks, laEqns st' b ∧ b.laOut = base b.id ∪ succsIn st' b := by
  intro f
  induction f with
  | zero =>
      intro st wl st' base hwf hok h1 h2 h3 h4 hrun
      cases wl with
      | nil =>
          obtain rfl : st = st' := Option.some.inj hrun
          refine ⟨List.forall₂_same.2 fun b _ => laShape_refl b, rfl, ?_⟩
          intro b hb
          have heqb := h1 b hb (by simp)
          refine ⟨heqb, ?_⟩
          apply Finset.Subset.antisymm
          · exact h2 b hb
          · exact Finset.union_subset (h4 b hb) heqb.1
      | cons w ws => simp [laLoop] at hrun
  | succ f ih =>
      intro st wl st' base hwf hok h1 h2 h3 h4 hrun
      cases wl with
      | nil =>
          obtain rfl : st = st' := Option.some.inj hrun
          refine ⟨List.forall₂_same.2 fun b _ => laShape_refl b, rfl, ?_⟩
          intro b hb
          have heqb := h1 b hb (by simp)
          refine ⟨heqb, ?_⟩
          apply Finset.Subset.antisymm
          · exact h2 b hb
          · exact Finset.union_subset (h4 b hb) heqb.1
      | cons w ws =>
          simp only [laLoop] at hrun
          have hmemn : (w :: ws).getLastD w ∈ w :: ws := by
            rw [getLastD_cons_eq]
            exact List.getLast_mem (by simp)
          cases hfind : st.blk? ((w :: ws).getLastD w) with
          | none =>
              exfalso
              rcases blk?_isSome (hok _ hmemn) with ⟨b, hb⟩
              rw [hfind] at hb
              cases hb
          | some b =>
              rw [hfind] at hrun
              obtain ⟨hwf1, hok1, hinv1, hinv2, hinv3, hinv4, hsh1, hco1⟩ :=
                laStep_pre st ((w :: ws).getLastD w) b ((w :: ws).dropLast)
                  (w :: ws) base
                  (b.laUse ∪ ((b.laOut ∪ succsIn st b) \ b.laDef))
                  (b.laOut ∪ succsIn st b)
                  (st.updBlk ((w :: ws).getLastD w)
                    (laUpd (b.laUse ∪ ((b.laOut ∪ succsIn st b) \ b.laDef))
                      (b.laOut ∪ succsIn st b)))
                  (if b.laIn
                      = b.laUse ∪ ((b.laOut ∪ succsIn st b) \ b.laDef) then
                    (w :: ws).dropLast
                   else prependPreds b.preds ((w :: ws).dropLast))
                  hwf hok h1 h2 h3 h4 hfind (wl_decomp w ws) rfl rfl rfl rfl
              obtain ⟨hsh2, hco2, heq2⟩ :=
                ih _ _ _ _ hwf1 hok1 hinv1 hinv2 hinv3 hinv4 hrun
              exact ⟨@forall₂_trans_of Blk laShape
                  (fun _ _ _ hab hbc => laShape_trans hab hbc) _ _ _ hsh1 hsh2,
                hco2.trans hco1, heq2⟩

/-- When the stable equations already hold everywhere, the liveness loop
consumes its worklist without changing the state. -/
theorem laLoop_stable : ∀ (f : Nat) (wl : List Nat) (st : St),
    (st.blocks.map (·.id)).Nodup → WlOk st wl →
    (∀ b ∈ st.blocks, laEqns st b) → wl.length ≤ f →
    laLoop f st wl = some st := by
  intro f
  induction f with
  | zero =>
      intro wl st _ _ _ hf
      cases wl with
      | nil => rfl
      | cons w ws => simp at hf
  | succ f ih =>
      intro wl st hnd hok heq hf
      cases wl with
      | nil => rfl
      | cons w ws =>
          have hmemn : (w :: ws).getLastD w ∈ w :: ws := by
            rw [getLastD_cons_eq]
            exact List.getLast_mem (by simp)
          obtain ⟨b, hfind⟩ := blk?_isSome (hok _ hmemn)
          have hbmem := (blk?_mem hfind).1
          have hbid := (blk?_mem hfind).2
          have heqb := heq b hbmem
          have hOut : b.laOut ∪ succsIn st b = b.laOut :=
            Finset.union_eq_left.2 heqb.1
          have hIn : b.laUse ∪ ((b.laOut ∪ succsIn st b) \ b.laDef)
              = b.laIn := by
            rw [hOut]
            exact heqb.2.symm
          have hupd : st.updBlk ((w :: ws).getLastD w)
              (laUpd (b.laUse ∪ ((b.laOut ∪ succsIn st b) \ b.laDef))
                (b.laOut ∪ succsIn st b)) = st := by
            unfold St.updBlk
            rw [map_eq_self_of]
            · intro bb hbb
              by_cases h : bb.id = (w :: ws).getLastD w
              · rw [if_pos h]
                have hbbb : bb = b := id_unique hnd hbb hbmem (h.trans hbid.symm)
                subst hbbb
                unfold laUpd
                rw [hIn, hOut]
              · rw [if_neg h]
          simp only [laLoop]
          rw [hfind]
          simp only [hupd, if_pos hIn.symm]
          apply ih ((w :: ws).dropLast) st hnd
          · intro k hk
            exact hok k ((wl_decomp w ws k).2 (Or.inl hk))
          · exact heq
          · have := hf
            simp only [List.length_cons] at this
            have hlen : ((w :: ws).dropLast).length = ws.length := by
              simp
            omega

/-- The la_out reseed applied by liveness_analisys to the last chain block. -/
def seedFun (gv : Finset Arg) (b : Blk) : Blk := { b with laOut := gv }

/-- Second-run core of liveness: from a stable state whose seeded block
satisfies la_out = gv together with the successor la_in sets, reseeding that
block and running the loop on the full worklist restores and keeps the
state. -/
theorem laSeedStep (st' : St) (gv : Finset Arg) (lid : Nat) (bL : Blk)
    (f : Nat) (w : Nat) (ws : List Nat)
    (hnd : (st'.blocks.map (·.id)).Nodup)
    (hfindL : st'.blk? lid = some bL)
    (houtL : bL.laOut = gv ∪ succsIn st' bL)
    (hwl : st'.blocks.map (·.id) = w :: ws)
    (hlast : (w :: ws).getLastD w = lid)
    (heqs : ∀ b ∈ st'.blocks, laEqns st' b)
    (hfuel : ws.length ≤ f) :
    laLoop (f + 1) (st'.updBlk lid (seedFun gv)) (w :: ws) = some st' := by
  have hbLmem : bL ∈ st'.blocks := (blk?_mem hfindL).1
  have hbLid : bL.id = lid := (blk?_mem hfindL).2
  have heqL : laEqns st' bL := heqs bL hbLmem
  have hfind2 : (st'.updBlk lid (seedFun gv)).blk? lid = some (seedFun gv bL) := by
    rw [blk?_updBlk st' lid lid (seedFun gv) (fun _ => rfl), hfindL]
    simp [hbLid]
  have hinOf2 : ∀ so, inOfOpt (st'.updBlk lid (seedFun gv)) so
      = inOfOpt st' so := by
    intro so
    rw [inOfOpt_updBlk st' lid bL (seedFun gv) (fun _ => rfl) hfindL so]
    by_cases h : so = some lid
    · rw [if_pos h, h]
      simp only [inOfOpt]
      rw [hfindL]
      rfl
    · rw [if_neg h]
  have hsucc2 : succsIn (st'.updBlk lid (seedFun gv)) (seedFun gv bL)
      = succsIn st' bL := by
    unfold succsIn
    have hsuccs : (seedFun gv bL).succs = bL.succs := rfl
    rw [hsuccs]
    exact foldl_union_congr bL.succs _ _ (fun so _ => hinOf2 so) ∅
  simp only [laLoop]
  rw [hlast, hfind2]
  show laLoop f
      ((st'.updBlk lid (seedFun gv)).updBlk lid
        (laUpd ((seedFun gv bL).laUse
            ∪ (((seedFun gv bL).laOut
                ∪ succsIn (st'.updBlk lid (seedFun gv)) (seedFun gv bL))
              \ (seedFun gv bL).laDef))
          ((seedFun gv bL).laOut
            ∪ succsIn (st'.updBlk lid (seedFun gv)) (seedFun gv bL))))
      (if (seedFun gv bL).laIn
          = (seedFun gv bL).laUse
            ∪ (((seedFun gv bL).laOut
                ∪ succsIn (st'.updBlk lid (seedFun gv)) (seedFun gv bL))
              \ (seedFun gv bL).laDef) then
        (w :: ws).dropLast
       else prependPreds (seedFun gv bL).preds ((w :: ws).dropLast))
      = some st'
  have hno : (seedFun gv bL).laOut
      ∪ succsIn (st'.updBlk lid (seedFun gv)) (seedFun gv bL) = bL.laOut := by
    show gv ∪ succsIn (st'.updBlk lid (seedFun gv)) (seedFun gv bL) = bL.laOut
    rw [hsucc2]
    exact houtL.symm
  rw [hno]
  have hni : (seedFun gv bL).laUse ∪ (bL.laOut \ (seedFun gv bL).laDef)
      = bL.laIn := heqL.2.symm
  rw [hni]
  rw [if_pos (show (seedFun gv bL).laIn = bL.laIn from rfl)]
  have hst3 : (st'.updBlk lid (seedFun gv)).updBlk lid (laUpd bL.laIn bL.laOut)
      = st' := by
    show ({ st' with blocks :=
      ((st'.blocks.map fun b => if b.id = lid then seedFun gv b else b).map
        fun b => if b.id = lid then laUpd bL.laIn bL.laOut b else b) } : St) = st'
    rw [List.map_map]
    rw [map_eq_self_of]
    intro b hb
    by_cases h : b.id = lid
    · have hbbL : b = bL := id_unique hnd hb hbLmem (h.trans hbLid.symm)
      subst hbbL
      simp only [Function.comp_apply, if_pos h]
      show (if (seedFun gv b).id = lid then laUpd b.laIn b.laOut (seedFun gv b)
        else seedFun gv b) = b
      rw [if_pos (show (seedFun gv b).id = lid from h)]
      rfl
    · simp only [Function.comp_apply, if_neg h]
  rw [hst3]
  apply laLoop_stable f ((w :: ws).dropLast) st' hnd
  · intro k hk
    have hk2 : k ∈ w :: ws := (wl_decomp w ws k).2 (Or.inl hk)
    rw [← hwl] at hk2
    rcases List.mem_map.1 hk2 with ⟨b, hb, rfl⟩
    exact ⟨b, hb, rfl⟩
  · exact heqs
  · simpa using hfuel

/-- The first phase of liveness_analisys: the use and def folds followed by
the la_out seed of the last chain block.  Same value as the let binding
inside liveness_analisys. -/
def laPhase1 (gv : Finset Arg) (st : St) : St :=
  { st with blocks := seedLast gv (st.blocks.map laUseDefBlk) }

/-- liveness_analisys is its first phase followed by the worklist loop. -/
theorem liveness_analisys_eq (fuel : Nat) (gv : Finset Arg) (st : St) :
    liveness_analisys fuel gv st
      = laLoop fuel (laPhase1 gv st) ((laPhase1 gv st).blocks.map (·.id)) := rfl

/-- Idempotence of liveness: a second run on the result of a successful run
over a freshly analysed state returns the result unchanged. -/
theorem liveness_analisys_idem (st st' : St) (gv : Finset Arg) (f1 f2 : Nat)
    (hwf : WF st)
    (hreset : ∀ b ∈ st.blocks, b.laIn = ∅ ∧ b.laOut = ∅)
    (h1 : liveness_analisys f1 gv st = some st')
    (hf2 : st'.blocks.length ≤ f2) :
    liveness_analisys f2 gv st' = some st' := by
  rw [liveness_analisys_eq] at h1
  rw [liveness_analisys_eq]
  by_cases hnil : st.blocks = []
  · -- the degenerate empty chain
    have hst1 : laPhase1 gv st = st := by
      unfold laPhase1
      rw [hnil]
      show ({ st with blocks := ([] : List Blk) } : St) = st
      rw [← hnil]
    rw [hst1, hnil] at h1
    have hsteq : st = st' := by
      cases f1 with
      | zero => exact Option.some.inj h1
      | succ f => exact Option.some.inj h1
    subst hsteq
    rw [hst1, hnil]
    cases f2 with
    | zero => rfl
    | succ f => rfl
  · -- the chain is nonempty
    have hne1 : st.blocks.map laUseDefBlk ≠ [] := by
      intro h
      exact hnil (List.map_eq_nil_iff.1 h)
    obtain ⟨b0L, hb0L⟩ : ∃ b0L, st.blocks.getLast? = some b0L :=
      ⟨_, List.getLast?_eq_getLast _ hnil⟩
    have hlb : (st.blocks.map laUseDefBlk).getLast? = some (laUseDefBlk b0L) := by
      rw [List.getLast?_map, hb0L]
      rfl
    have hblocks1 : (laPhase1 gv st).blocks
        = st.blocks.map (fun b0 =>
            if (laUseDefBlk b0).id = (laUseDefBlk b0L).id
              then seedFun gv (laUseDefBlk b0) else laUseDefBlk b0) := by
      show seedLast gv (st.blocks.map laUseDefBlk) = _
      unfold seedLast
      rw [hlb]
      show (st.blocks.map laUseDefBlk).map
          (fun b => if b.id = (laUseDefBlk b0L).id then { b with laOut := gv } else b) = _
      rw [List.map_map]
      rfl
    have hstatic : ∀ b0 ∈ st.blocks,
        staticEq b0 (if (laUseDefBlk b0).id = (laUseDefBlk b0L).id
          then seedFun gv (laUseDefBlk b0) else laUseDefBlk b0) := by
      intro b0 _
      by_cases h : (laUseDefBlk b0).id = (laUseDefBlk b0L).id
      · rw [if_pos h]
        exact ⟨rfl, rfl, rfl⟩
      · rw [if_neg h]
        exact ⟨rfl, rfl, rfl⟩
    have hwf1 : WF (laPhase1 gv st) := WF_staticMap hblocks1 hstatic hwf
    have hmem1 : ∀ b' ∈ (laPhase1 gv st).blocks,
        ∃ b0 ∈ st.blocks, b' = (if (laUseDefBlk b0).id = (laUseDefBlk b0L).id
          then seedFun gv (laUseDefBlk b0) else laUseDefBlk b0) := by
      intro b' hb'
      rw [hblocks1] at hb'
      rcases List.mem_map.1 hb' with ⟨b0, hb0, heq⟩
      exact ⟨b0, hb0, heq.symm⟩
    obtain ⟨hsh, hco, heqs⟩ :=
      laLoop_spec f1 _ _ st'
        (fun k => if k = (laUseDefBlk b0L).id then gv else ∅)
        hwf1 (WlOk_ids _)
        (by
          intro b hb hnot
          exact absurd (List.mem_map_of_mem _ hb) hnot)
        (by
          intro b' hb'
          rcases hmem1 b' hb' with ⟨b0, hb0, rfl⟩
          by_cases h : (laUseDefBlk b0).id = (laUseDefBlk b0L).id
          · rw [if_pos h]
            show gv ⊆ _
            intro x hx
            apply Finset.mem_union_left
            show x ∈ (if (laUseDefBlk b0).id = (laUseDefBlk b0L).id then gv else ∅)
            rw [if_pos h]
            exact hx
          · rw [if_neg h]
            show (laUseDefBlk b0).laOut ⊆ _
            have h2 : (laUseDefBlk b0).laOut = b0.laOut := rfl
            rw [h2, (hreset b0 hb0).2]
            intro x hx
            cases Finset.not_mem_empty x hx)
        (by
          intro b' hb'
          rcases hmem1 b' hb' with ⟨b0, hb0, rfl⟩
          by_cases h : (laUseDefBlk b0).id = (laUseDefBlk b0L).id
          · rw [if_pos h]
            show (seedFun gv (laUseDefBlk b0)).laIn ⊆ _
            have h2 : (seedFun gv (laUseDefBlk b0)).laIn = b0.laIn := rfl
            rw [h2, (hreset b0 hb0).1]
            intro x hx
            cases Finset.not_mem_empty x hx
          · rw [if_neg h]
            show (laUseDefBlk b0).laIn ⊆ _
            have h2 : (laUseDefBlk b0).laIn = b0.laIn := rfl
            rw [h2, (hreset b0 hb0).1]
            intro x hx
            cases Finset.not_mem_empty x hx)
        (by
          intro b' hb'
          rcases hmem1 b' hb' with ⟨b0, hb0, rfl⟩
          by_cases h : (laUseDefBlk b0).id = (laUseDefBlk b0L).id
          · rw [if_pos h]
            show (if (laUseDefBlk b0).id = (laUseDefBlk b0L).id then gv else ∅) ⊆ gv
            rw [if_pos h]
          · rw [if_neg h]
            show (if (laUseDefBlk b0).id = (laUseDefBlk b0L).id then gv else ∅)
              ⊆ (laUseDefBlk b0).laOut
            rw [if_neg h]
            intro x hx
            cases Finset.not_mem_empty x hx)
        h1
    have hids1 : (laPhase1 gv st).blocks.map (·.id) = st.blocks.map (·.id) := by
      rw [hblocks1]
      exact ids_staticMap hstatic
    have hids2 : st'.blocks.map (·.id) = st.blocks.map (·.id) := by
      rw [forall₂_map_eq (fun a b hab => by rw [hab]) hsh]
      exact hids1
    have hnd' : (st'.blocks.map (·.id)).Nodup := by
      rw [hids2]
      exact hwf.1
    have hne' : st'.blocks ≠ [] := by
      intro h
      apply hnil
      have h2 := hids2
      rw [h] at h2
      cases hq : st.blocks with
      | nil => rfl
      | cons a l =>
          rw [hq] at h2
          cases h2
    have hmap2 : st'.blocks.map laUseDefBlk = st'.blocks := by
      apply map_eq_self_of
      intro b' hb'
      rcases forall₂_mem_right hsh b' hb' with ⟨b1, hb1, hshape⟩
      rcases hmem1 b1 hb1 with ⟨b0, hb0, rfl⟩
      by_cases h : (laUseDefBlk b0).id = (laUseDefBlk b0L).id
      · rw [if_pos h] at hshape
        apply laUseDefBlk_stable b' b0.laUse b0.laDef
        rw [hshape]
        rfl
      · rw [if_neg h] at hshape
        apply laUseDefBlk_stable b' b0.laUse b0.laDef
        rw [hshape]
        rfl
    have hlast' : ∃ lbw, st'.blocks.getLast? = some lbw ∧ lbw.id = b0L.id := by
      obtain ⟨lbw, hlbw⟩ : ∃ lbw, st'.blocks.getLast? = some lbw :=
        ⟨_, List.getLast?_eq_getLast _ hne'⟩
      refine ⟨lbw, hlbw, ?_⟩
      have h2 : (st'.blocks.map (·.id)).getLast?
          = (st.blocks.map (·.id)).getLast? := by
        rw [hids2]
      rw [List.getLast?_map, List.getLast?_map, hlbw, hb0L] at h2
      exact Option.some.inj h2
    obtain ⟨lbw, hlbw, hlbwid⟩ := hlast'
    have hseed2 : seedLast gv st'.blocks
        = st'.blocks.map (fun b => if b.id = b0L.id
            then { b with laOut := gv } else b) := by
      unfold seedLast
      rw [hlbw]
      show st'.blocks.map (fun b => if b.id = lbw.id then { b with laOut := gv } else b) = _
      rw [hlbwid]
    obtain ⟨bL, hfindL⟩ : ∃ bL, st'.blk? b0L.id = some bL := by
      apply blk?_isSome
      have hmem : b0L.id ∈ st'.blocks.map (·.id) := by
        rw [hids2]
        apply List.mem_map.2
        refine ⟨b0L, ?_, rfl⟩
        rw [← @List.dropLast_append_getLast _ st.blocks hnil]
        apply List.mem_append.2
        apply Or.inr
        rw [← Option.some.inj
          ((List.getLast?_eq_getLast st.blocks hnil).symm.trans hb0L)]
        exact List.mem_singleton.2 rfl
      rcases List.mem_map.1 hmem with ⟨b, hb, hbid⟩
      exact ⟨b, hb, hbid⟩
    have houtL : bL.laOut = gv ∪ succsIn st' bL := by
      have h2 := (heqs bL (blk?_mem hfindL).1).2
      rw [h2, (blk?_mem hfindL).2]
      rw [if_pos (show b0L.id = (laUseDefBlk b0L).id from rfl)]
    have hphase2 : laPhase1 gv st' = st'.updBlk b0L.id (seedFun gv) := by
      unfold laPhase1
      rw [hmap2, hseed2]
      rfl
    rw [hphase2]
    have hwlids : (st'.updBlk b0L.id (seedFun gv)).blocks.map (·.id)
        = st'.blocks.map (·.id) := by
      apply ids_staticMap
      intro b _
      by_cases h : b.id = b0L.id
      · rw [if_pos h]
        exact ⟨rfl, rfl, rfl⟩
      · rw [if_neg h]
        exact ⟨rfl, rfl, rfl⟩
    rw [hwlids]
    cases hc : st'.blocks.map (·.id) with
    | nil =>
        exfalso
        apply hne'
        cases hq : st'.blocks with
        | nil => rfl
        | cons a l =>
            rw [hq] at hc
            cases hc
    | cons w ws =>
        have hlastD : (w :: ws).getLastD w = b0L.id := by
          rw [List.getLastD_eq_getLast?, ← hc, List.getLast?_map, hlbw]
          show lbw.id = b0L.id
          exact hlbwid
        have hlen : st'.blocks.length = ws.length + 1 := by
          have h2 : (st'.blocks.map (·.id)).length = (w :: ws).length := by
            rw [hc]
          simpa using h2
        cases f2 with
        | zero =>
            exfalso
            rw [hlen] at hf2
            simp at hf2
        | succ fz =>
            apply laSeedStep st' gv b0L.id bL fz w ws hnd' hfindL houtL hc
              hlastD (fun b hb => (heqs b hb).1)
            rw [hlen] at hf2
            omega

/-- The fold step of instruction_analisys, named for reasoning; definitionally
the lambda inside instruction_analisys. -/
def iaStep (acc : List Blk × List IObj × Nat) (b : Blk) : List Blk × List IObj × Nat :=
  let objs := labelInsts acc.2.2 b.insts
  (acc.1 ++ [{ resetBlk b with code := objs.1 }], acc.2.1 ++ objs.1, objs.2)

/-- The fold of instruction_analisys only appends blocks rebuilt from
resetBlk, so the liveness in and out sets of every produced block are empty. -/
theorem iaFold_reset : ∀ (bs : List Blk) (acc : List Blk × List IObj × Nat),
    (∀ b ∈ acc.1, b.laIn = ∅ ∧ b.laOut = ∅) →
    ∀ b ∈ (bs.foldl iaStep acc).1, b.laIn = ∅ ∧ b.laOut = ∅ := by
  intro bs
  induction bs with
  | nil => intro acc hacc; exact hacc
  | cons x xs ih =>
      intro acc hacc
      rw [List.foldl_cons]
      apply ih
      intro b hb
      rcases List.mem_append.1 hb with h | h
      · exact hacc b h
      · rw [List.mem_singleton.1 h]
        exact ⟨rfl, rfl⟩

/-- Every block leaving instruction_analisys has empty la_in and la_out. -/
theorem instruction_analisys_reset (bs : List Blk) :
    ∀ b ∈ (instruction_analisys bs).blocks, b.laIn = ∅ ∧ b.laOut = ∅ := by
  intro b hb
  exact iaFold_reset bs ([], [], 0) (by intro b h; cases h) b hb

/-- C6: for a CFG freshly analysed by instruction_analisys whose chain is
well-formed, a second run of reaching_definitions on the result of a
successful first run returns it unchanged, and likewise a second run of
liveness_analisys returns its first result unchanged: both fixed-point
passes are idempotent, leaving every block's gen, kill, use, def, in and
out sets identical to their values after the first run. -/
theorem c6_thm (bs : List Blk) (rd1 la1 : St) (gv : Finset Arg)
    (f1 f2 g1 g2 : Nat)
    (hwf : WF (instruction_analisys bs))
    (hrd : reaching_definitions f1 (instruction_analisys bs) = some rd1)
    (hla : liveness_analisys g1 gv (instruction_analisys bs) = some la1)
    (hf2 : rd1.blocks.length ≤ f2)
    (hg2 : la1.blocks.length ≤ g2) :
    reaching_definitions f2 rd1 = some rd1 ∧
      liveness_analisys g2 gv la1 = some la1 :=
  ⟨reaching_definitions_idem _ rd1 f1 f2 hwf hrd hf2,
   liveness_analisys_idem _ la1 gv g1 g2 hwf (instruction_analisys_reset bs) hla hg2⟩

/-- A concrete one-block program for the C6 witness. -/
def c6bs : List Blk :=
  [{ id := 0
     label := "%entry"
     isCond := false
     insts := [⟨"literal_int", [Arg.intv 5, Arg.var "%1"]⟩,
               ⟨"print_int", [Arg.var "%1"]⟩] }]

/-- The result of the first reaching-definitions run on the witness CFG. -/
def c6rd : St :=
  (reaching_definitions 2 (instruction_analisys c6bs)).getD (instruction_analisys c6bs)

/-- The result of the first liveness run on the witness CFG. -/
def c6la : St :=
  (liveness_analisys 2 ∅ (instruction_analisys c6bs)).getD (instruction_analisys c6bs)

/-- Every successor slot of the witness CFG after analysis is none. -/
theorem c6succs : ∀ b ∈ (instruction_analisys c6bs).blocks, b.succs = [none] := by
  decide

/-- Witness for c6_thm: on the concrete one-block program both passes
converge in two fuel steps and a second run of each returns the same state. -/
theorem c6_witness :
    WF (instruction_analisys c6bs) ∧
    reaching_definitions 2 (instruction_analisys c6bs) = some c6rd ∧
    liveness_analisys 2 ∅ (instruction_analisys c6bs) = some c6la ∧
    (reaching_definitions 1 c6rd = some c6rd ∧
      liveness_analisys 1 ∅ c6la = some c6la) := by
  have hwf : WF (instruction_analisys c6bs) := by
    refine ⟨by decide, by decide, ?_, by decide, ?_⟩
    · intro b hb n hn
      rw [c6succs b hb] at hn
      exact Option.noConfusion (List.mem_singleton.1 hn)
    · intro b hb n hn
      rw [c6succs b hb] at hn
      exact Option.noConfusion (List.mem_singleton.1 hn)
  have hrd : reaching_definitions 2 (instruction_analisys c6bs) = some c6rd := by
    decide
  have hla : liveness_analisys 2 ∅ (instruction_analisys c6bs) = some c6la := by
    decide
  exact ⟨hwf, hrd, hla,
    c6_thm c6bs c6rd c6la ∅ 2 1 2 1 hwf hrd hla (by decide) (by decide)⟩

/-- The keyword alternatives of may_kill_re in deadcode_elimination
(uc_code.py line 1606). -/
def dceKws : List String :=
  ["alloc", "load", "store", "literal", "elem", "get", "add", "sub", "mul",
   "div", "mod", "lt", "le", "ge", "gt", "eq", "ne", "and", "or", "not"]

/-- may_kill_re under re.match: one of the listed families followed by an
underscore and a nonempty final segment containing no further underscore
(the scalar form, anchored by the dollar), or any opcode starting with
fptosi or sitofp (those two alternatives are not anchored at the end). -/
def mayKill (op : String) : Bool :=
  (dceKws.any fun kw =>
    strStartsWith op (kw ++ "_") &&
      (let rest := (strDrop op (kw.length + 1)).data
       decide (rest ≠ []) && rest.all fun c => decide (c ≠ '_'))) ||
  strStartsWith op "fptosi" || strStartsWith op "sitofp"

/-- re.match of the pattern percent digits against a variable name: a
percent sign followed by at least one digit (uc_code.py line 1624). -/
def isTempName (s : String) : Bool :=
  match s.data with
  | c1 :: c2 :: _ => c1 = '%' && c2.isDigit
  | _ => false

/-- list applied to a singleton def set, then element zero: the name of the
defined variable. -/
def argName : Arg → String
  | Arg.var s => s
  | _ => ""

/-- The marking of one instruction in the backward scan of
deadcode_elimination (uc_code.py lines 1614 to 1620): a may-kill
instruction whose def set misses the current live-out is marked dead, and
then revived when it is an alloc whose def set meets used_vars. -/
def dceMarkInst (cur used : Finset Arg) (o : IObj) : IObj :=
  if mayKill o.inst.op then
    if optSet o.defS ∩ cur = ∅ then
      if strStartsWith o.inst.op "alloc_" && decide (optSet o.defS ∩ used ≠ ∅)
        then { o with alive := true }
        else { o with alive := false }
    else o
  else o

/-- One instruction of the reversed code_obj loop (uc_code.py lines 1613 to
1625): marking, then for a surviving instruction the live-set update
use or (out minus def) and the used_vars update for a named, non-temporary
definition.  Prepending the processed object rebuilds the code in source
order. -/
def dceFold (acc : Finset Arg × Finset Arg × List IObj) (o : IObj) :
    Finset Arg × Finset Arg × List IObj :=
  let o1 := dceMarkInst acc.1 acc.2.1 o
  if o1.alive then
    (o1.useS ∪ (acc.1 \ optSet o1.defS),
     (match o1.defS with
      | some a => if isTempName (argName a) then acc.2.1 else acc.2.1 ∪ {a}
      | none => acc.2.1),
     o1 :: acc.2.2)
  else (acc.1, acc.2.1, o1 :: acc.2.2)

/-- Writing the fresh marks back: the scanned block receives the rescanned
code list, and every self.code_obj entry with a matching label receives the
same object (in Python both lists hold the same dictionaries). -/
def dceMarkBlk (newCode : List IObj) (n : Nat) (st : St) : St :=
  { blocks := st.blocks.map fun x => if x.id = n then { x with code := newCode } else x
    codeObjs := st.codeObjs.map fun o => ((newCode.find? fun o2 => o2.label = o.label).getD o) }

/-- The removal and instruction rebuild (uc_code.py lines 1627 to 1636):
dead objects leave the block code and self.code_obj, and
block.instructions is rebuilt from the surviving objects. -/
def dceRemoveBlk (keep : List IObj) (newInsts : List Inst) (n : Nat) (st : St) : St :=
  { blocks := st.blocks.map fun x => if x.id = n then { x with code := keep, insts := newInsts } else x
    codeObjs := st.codeObjs.filter (·.alive) }

/-- The worklist loop of deadcode_elimination (uc_code.py lines 1608 to
1640): pop the last node, rescan its code backwards starting from its
la_out with empty used_vars, write the marks back, remove the dead objects
from both lists (a dead self.code_obj entry absent from the scanned block
would make list.remove raise ValueError, modelled as none), rebuild the
instruction list, and prepend the predecessors when its length changed. -/
def dceLoop : Nat → St → List Nat → Option St
  | _, st, [] => some st
  | 0, _, _ :: _ => none
  | fuel + 1, st, w :: ws =>
      let n := (w :: ws).getLastD w
      let rest := (w :: ws).dropLast
      match st.blk? n with
      | none => dceLoop fuel st rest
      | some b =>
          let folded := b.code.reverse.foldl dceFold (b.laOut, ∅, [])
          let newCode := folded.2.2
          let st1 := dceMarkBlk newCode n st
          if (st1.codeObjs.filter fun o => o.alive = false).all
              (fun o => (newCode.map (·.label)).contains o.label) then
            let keep := newCode.filter (·.alive)
            let newInsts := keep.map (·.inst)
            let st2 := dceRemoveBlk keep newInsts n st1
            let wl2 := if newInsts.length ≠ b.insts.length
                       then prependPreds b.preds rest else rest
            dceLoop fuel st2 wl2
          else none

/-- CodeGenerator.deadcode_elimination (uc_code.py lines 1599 to 1640): the
worklist starts as the whole next_block chain. -/
def deadcode_elimination (fuel : Nat) (st : St) : Option St :=
  dceLoop fuel st (st.blocks.map (·.id))

/-- The C3 counterexample program: a diamond whose left arm only allocates
x and whose right arm reads x. -/
def c3bs : List Blk :=
  [{ id := 0
     label := "E"
     isCond := true
     taken := some 1
     fallThrough := some 2
     insts := [⟨"literal_bool", [Arg.boolv true, Arg.var "%c"]⟩,
               ⟨"cbranch", [Arg.var "%c", Arg.var "%L1", Arg.var "%L2"]⟩] },
   { id := 1
     label := "L1"
     isCond := false
     branch := some 3
     preds := [0]
     insts := [⟨"alloc_int", [Arg.var "x"]⟩,
               ⟨"jump", [Arg.var "%X"]⟩] },
   { id := 2
     label := "L2"
     isCond := false
     branch := some 3
     preds := [0]
     insts := [⟨"load_int", [Arg.var "x", Arg.var "%2"]⟩,
               ⟨"print_int", [Arg.var "%2"]⟩,
               ⟨"jump", [Arg.var "%X"]⟩] },
   { id := 3
     label := "X"
     isCond := false
     preds := [1, 2]
     insts := [⟨"return_void", [Arg.var "%X"]⟩] }]

/-- The C3 CFG after instruction analysis and liveness. -/
def c3stL : St :=
  (liveness_analisys 8 ∅ (instruction_analisys c3bs)).getD (instruction_analisys c3bs)

/-- The C3 CFG after dead-code elimination on top of liveness. -/
def c3stD : St := (deadcode_elimination 8 c3stL).getD c3stL

/-- C3 counterexample: in the diamond program c3bs the variable x is live
in the right arm after liveness, the left arm holds a live alloc of x, yet
dead-code elimination removes that alloc, because its revival consults
only the used_vars of its own block, not liveness anywhere in the
function. -/
theorem c3_counterexample :
    liveness_analisys 8 ∅ (instruction_analisys c3bs) = some c3stL ∧
    deadcode_elimination 8 c3stL = some c3stD ∧
    (∃ b ∈ c3stL.blocks, Arg.var "x" ∈ b.laIn) ∧
    (∃ o ∈ c3stL.codeObjs, strStartsWith o.inst.op "alloc_" = true ∧
      o.defS = some (Arg.var "x") ∧ o.alive = true) ∧
    (∀ o ∈ c3stD.codeObjs, ¬ strStartsWith o.inst.op "alloc_" = true) := by
  decide

/-- C3 amended: in the backward scan of deadcode_elimination an alive
may-kill instruction ends up dead iff its def set misses the current
live-out at that point, except that an alloc is revived exactly when its
def set meets used_vars, the set of variables defined by later surviving
non-temporary definitions of the same block; liveness of the variable
elsewhere in the function plays no part. -/
theorem c3_amended (cur used : Finset Arg) (o : IObj) (halive : o.alive = true) :
    ((dceMarkInst cur used o).alive = false ↔
      (mayKill o.inst.op = true ∧ optSet o.defS ∩ cur = ∅ ∧
        ¬(strStartsWith o.inst.op "alloc_" = true ∧ optSet o.defS ∩ used ≠ ∅))) := by
  unfold dceMarkInst
  split_ifs with h1 h2 h3 <;> simp_all [Bool.and_eq_true]

/-- The alloc code object of the C3 witness. -/
def c3o : IObj := mkIObj 0 ⟨"alloc_int", [Arg.var "x"]⟩

/-- Witness for c3_amended: the alloc of x with empty live-out and x in
used_vars is revived, so it is not dead, matching the right side. -/
theorem c3_amended_witness :
    c3o.alive = true ∧
    ((dceMarkInst ∅ {Arg.var "x"} c3o).alive = false ↔
      (mayKill c3o.inst.op = true ∧ optSet c3o.defS ∩ ∅ = ∅ ∧
        ¬(strStartsWith c3o.inst.op "alloc_" = true ∧
          optSet c3o.defS ∩ {Arg.var "x"} ≠ ∅))) :=
  ⟨by decide, c3_amended ∅ {Arg.var "x"} c3o (by decide)⟩

/-- The set of instruction tuples of the self.code_obj entries whose label
lies in the current reaching set and whose def set is exactly the given
operand (uc_code.py lines 1488 and 1576), as the duplicate-free list of
its elements; the Python set has one element exactly when this list is a
singleton, and pop then returns that element. -/
def defsOf (objs : List IObj) (R : Finset Nat) (p : Arg) : List Inst :=
  ((objs.filter fun x => decide (x.label ∈ R) && x.defS == some p).map (·.inst)).dedup

/-- The fresh BasicBlock built by changeBlockToBasic (uc_code.py lines 281
to 290): same label, shared instruction list, shared predecessor list, the
selected arm as its single successor, and a fresh empty code_obj and
analysis state from BasicBlock.__init__.  The fresh Python object is a
fresh id here. -/
def cbbNew (b : Blk) (result : Bool) (freshId : Nat) : Blk :=
  { id := freshId
    label := b.label
    isCond := false
    branch := if result then b.taken else b.fallThrough
    preds := b.preds
    insts := b.insts }

/-- The predecessor rewiring of changeBlockToBasic (uc_code.py lines 295
to 305): a BasicBlock predecessor points its branch at the new block; a
ConditionBlock predecessor points taken at it when taken was the old
block, and otherwise overwrites fall_through. -/
def cbbRedirect (bid freshId : Nat) (prds : List Nat) (x : Blk) : Blk :=
  if x.id ∈ prds then
    if x.isCond = false then { x with branch := some freshId }
    else if x.taken = some bid then { x with taken := some freshId }
    else { x with fallThrough := some freshId }
  else x

/-- CodeGenerator.changeBlockToBasic at the state level (uc_code.py lines
281 to 310): predecessors are rewired, and the old block is replaced in
the next_block chain by the new one when it has a chain predecessor; when
it is the chain head, the head keeps pointing at the old block, so the new
block never enters the chain.  The new block is returned alongside. -/
def changeBlockToBasic (st : St) (b : Blk) (result : Bool) (freshId : Nat) :
    St × Blk :=
  let nb := cbbNew b result freshId
  let blocks2 := st.blocks.map (cbbRedirect b.id freshId b.preds)
  let blocks3 := if st.blocks.head?.map (·.id) = some b.id then blocks2
                 else blocks2.map fun x => if x.id = b.id then nb else x
  ({ st with blocks := blocks3 }, nb)

/-- Replacement of the first occurrence, as list.index followed by an
indexed assignment does. -/
def replaceFirst : List Inst → Inst → Inst → List Inst
  | [], _, _ => []
  | i :: is', old, new => if i = old then new :: is' else i :: replaceFirst is' old new

/-- inst applied to a new tuple: every code object with the given label, in
block code lists and in self.code_obj alike, receives the new
instruction. -/
def setObjInst (lbl : Nat) (new : Inst) (st : St) : St :=
  { blocks := st.blocks.map fun b => { b with code := b.code.map fun o => if o.label = lbl then { o with inst := new } else o }
    codeObjs := st.codeObjs.map fun o => if o.label = lbl then { o with inst := new } else o }

/-- The cbranch body of one branch_folding iteration (uc_code.py lines 1570
to 1595) at a block b with current reaching set R, for the code object o:
when the condition operand has exactly one reaching definition tuple and
that tuple repeats its first operand, the block is converted with
changeBlockToBasic on the eq test of the defining opcode, and the cbranch
tuple is replaced, in the shared instruction list and in the code object,
by a jump to the label of the selected arm.  none models a Python
exception: a missing operand, a definition tuple with fewer than three
elements, a converted block without a successor, or a cbranch absent from
the instruction list. -/
def branch_folding_step (st : St) (b : Blk) (o : IObj) (R : Finset Nat)
    (freshId : Nat) : Option St :=
  if o.inst.op = "cbranch" then
    match o.inst.args with
    | [] => none
    | p :: _ =>
        match defsOf st.codeObjs R p with
        | [d] =>
            match d.args with
            | a1 :: a2 :: _ =>
                if a1 = a2 then
                  if o.inst ∈ b.insts then
                    let r := changeBlockToBasic st b (strStartsWith d.op "eq") freshId
                    match r.2.branch with
                    | none => none
                    | some tgt =>
                        match r.1.blk? tgt with
                        | none => none
                        | some tb =>
                            let newInst : Inst := ⟨"jump", [Arg.var tb.label]⟩
                            let st2 := { r.1 with blocks := r.1.blocks.map fun x => if x.id = b.id ∨ x.id = freshId then { x with insts := replaceFirst x.insts o.inst newInst } else x }
                            some (setObjInst o.label newInst st2)
                  else none
                else some st
            | _ => none
        | _ => some st
  else some st

/-- The ConditionBlock of the C4 example: its condition has one reaching
definition, a canonical eq comparison with repeated operand. -/
def c4cond : Blk :=
  { id := 1
    label := "C"
    isCond := true
    taken := some 2
    fallThrough := some 3
    preds := [0]
    insts := [⟨"eq_int", [Arg.var "%5", Arg.var "%5", Arg.var "%1"]⟩,
              ⟨"cbranch", [Arg.var "%1", Arg.var "%L2", Arg.var "%L3"]⟩] }

/-- The cbranch code object of the C4 example. -/
def c4o : IObj := mkIObj 1 ⟨"cbranch", [Arg.var "%1", Arg.var "%L2", Arg.var "%L3"]⟩

/-- The C4 example state: entry, condition block, and the two arms. -/
def c4st : St :=
  { blocks := [{ id := 0, label := "E", isCond := false, branch := some 1 },
               c4cond,
               { id := 2, label := "L2", isCond := false, preds := [1] },
               { id := 3, label := "L3", isCond := false, preds := [1] }]
    codeObjs := [mkIObj 0 ⟨"eq_int", [Arg.var "%5", Arg.var "%5", Arg.var "%1"]⟩, c4o] }

/-- The state after the C4 folding step. -/
def c4res : St := (branch_folding_step c4st c4cond c4o {0} 9).getD c4st

/-- C4 counterexample: folding fires and converts the condition block (the
fresh block 9 is basic, jumps at the chosen arm 2, and carries the
rewritten instruction), yet the unchosen arm 3 still lists the folded
block 1 among its predecessors even though no chain block has id 1 any
more: changeBlockToBasic rewires the predecessors of the folded block but
never touches the predecessor lists of its successors. -/
theorem c4_counterexample :
    branch_folding_step c4st c4cond c4o {0} 9 = some c4res ∧
    (∃ y ∈ c4res.blocks, y.id = 9 ∧ y.isCond = false ∧ y.branch = some 2 ∧
      (⟨"jump", [Arg.var "L2"]⟩ : Inst) ∈ y.insts) ∧
    (∃ x ∈ c4res.blocks, x.id = 3 ∧ x.preds = [1]) ∧
    (∀ x ∈ c4res.blocks, x.id ≠ 1) := by
  decide

/-- The predecessor rewiring never changes the id of a block. -/
theorem cbbRedirect_id (bid freshId : Nat) (prds : List Nat) (x : Blk) :
    (cbbRedirect bid freshId prds x).id = x.id := by
  unfold cbbRedirect
  split_ifs <;> rfl

/-- The predecessor rewiring never changes the predecessor list of a
block. -/
theorem cbbRedirect_preds (bid freshId : Nat) (prds : List Nat) (x : Blk) :
    (cbbRedirect bid freshId prds x).preds = x.preds := by
  unfold cbbRedirect
  split_ifs <;> rfl

/-- C4 amended: when branch folding fires on a cbranch whose condition has
exactly one reaching definition repeating its first operand, and the
folded block is not the chain head, the folded slot of the chain holds a
fresh BasicBlock whose single successor is the selected arm and whose
instruction list carries the cbranch rewritten to a jump at that arm's
label; but no predecessor list of any block changes, so the unchosen
successor (like the chosen one) still lists the old folded block among
its predecessors. -/
theorem c4_amended (st : St) (b : Blk) (o : IObj) (R : Finset Nat)
    (freshId tgt : Nat) (d : Inst) (p a : Arg) (ps as' : List Arg) (tb : Blk)
    (hnd : (st.blocks.map (·.id)).Nodup)
    (hb : b ∈ st.blocks)
    (hfresh : freshId ∉ st.blocks.map (·.id))
    (hnothead : ¬ st.blocks.head?.map (·.id) = some b.id)
    (hop : o.inst.op = "cbranch")
    (hargs : o.inst.args = p :: ps)
    (hdefs : defsOf st.codeObjs R p = [d])
    (hd : d.args = a :: a :: as')
    (hin : o.inst ∈ b.insts)
    (harm : (if strStartsWith d.op "eq" then b.taken else b.fallThrough) = some tgt)
    (htb : ((changeBlockToBasic st b (strStartsWith d.op "eq") freshId).1).blk? tgt
      = some tb) :
    ∃ st2, branch_folding_step st b o R freshId = some st2 ∧
      (∃ y ∈ st2.blocks, y.id = freshId) ∧
      (∀ y ∈ st2.blocks, y.id = freshId →
        y.isCond = false ∧ y.branch = some tgt ∧ y.label = b.label ∧
        y.insts = replaceFirst b.insts o.inst ⟨"jump", [Arg.var tb.label]⟩) ∧
      st2.blocks.map (·.preds) = st.blocks.map (·.preds) := by
  have hbr2 : (changeBlockToBasic st b (strStartsWith d.op "eq") freshId).2.branch
      = some tgt := harm
  have hstep : branch_folding_step st b o R freshId
      = some (setObjInst o.label ⟨"jump", [Arg.var tb.label]⟩
          { (changeBlockToBasic st b (strStartsWith d.op "eq") freshId).1 with
              blocks := (changeBlockToBasic st b (strStartsWith d.op "eq") freshId).1.blocks.map fun x => if x.id = b.id ∨ x.id = freshId then { x with insts := replaceFirst x.insts o.inst ⟨"jump", [Arg.var tb.label]⟩ } else x }) := by
    unfold branch_folding_step
    simp only [hop, hargs, hdefs, hd, hbr2, htb, if_pos rfl, hin, if_true,
      ite_true, eq_self_iff_true]
  have hblocks : (changeBlockToBasic st b (strStartsWith d.op "eq") freshId).1.blocks
      = (st.blocks.map (cbbRedirect b.id freshId b.preds)).map
          (fun x => if x.id = b.id then cbbNew b (strStartsWith d.op "eq") freshId
            else x) := by
    show (if st.blocks.head?.map (·.id) = some b.id
        then st.blocks.map (cbbRedirect b.id freshId b.preds)
        else (st.blocks.map (cbbRedirect b.id freshId b.preds)).map fun x =>
          if x.id = b.id then cbbNew b (strStartsWith d.op "eq") freshId else x) = _
    rw [if_neg hnothead]
  have hmemnb : cbbNew b (strStartsWith d.op "eq") freshId
      ∈ (changeBlockToBasic st b (strStartsWith d.op "eq") freshId).1.blocks := by
    rw [hblocks]
    refine List.mem_map.2 ⟨cbbRedirect b.id freshId b.preds b,
      List.mem_map_of_mem _ hb, ?_⟩
    show (if (cbbRedirect b.id freshId b.preds b).id = b.id
        then cbbNew b (strStartsWith d.op "eq") freshId
        else cbbRedirect b.id freshId b.preds b)
      = cbbNew b (strStartsWith d.op "eq") freshId
    rw [cbbRedirect_id, if_pos rfl]
  refine ⟨_, hstep, ?_, ?_, ?_⟩
  · -- the fresh block is in the chain of the result
    refine ⟨_, List.mem_map_of_mem _ (List.mem_map_of_mem _ hmemnb), ?_⟩
    dsimp only
    split_ifs <;> rfl
  · -- every chain block carrying the fresh id is the converted block
    intro y hy hid
    rcases List.mem_map.1 hy with ⟨z, hz, hzy⟩
    rcases List.mem_map.1 hz with ⟨z2, hz2, hz2z⟩
    rw [hblocks] at hz2
    rcases List.mem_map.1 hz2 with ⟨z3, hz3, hz3z2⟩
    rcases List.mem_map.1 hz3 with ⟨z4, hz4, hz4z3⟩
    subst hz4z3
    subst hz3z2
    subst hz2z
    subst hzy
    by_cases hc : (cbbRedirect b.id freshId b.preds z4).id = b.id
    · rw [if_pos hc]
      have hnb : (cbbNew b (strStartsWith d.op "eq") freshId).id = freshId := rfl
      rw [if_pos (Or.inr hnb)]
      exact ⟨rfl, harm, rfl, rfl⟩
    · exfalso
      rw [if_neg hc] at hid
      have hz4id : (cbbRedirect b.id freshId b.preds z4).id = freshId := by
        by_cases hc2 : (cbbRedirect b.id freshId b.preds z4).id = b.id
          ∨ (cbbRedirect b.id freshId b.preds z4).id = freshId
        · rw [if_pos hc2] at hid
          exact hid
        · rw [if_neg hc2] at hid
          exact hid
      apply hfresh
      rw [cbbRedirect_id] at hz4id
      rw [← hz4id]
      exact List.mem_map_of_mem (·.id) hz4
  · -- no predecessor list changed
    show (((changeBlockToBasic st b (strStartsWith d.op "eq") freshId).1.blocks.map
        (fun x => if x.id = b.id ∨ x.id = freshId
          then { x with insts := replaceFirst x.insts o.inst ⟨"jump", [Arg.var tb.label]⟩ }
          else x)).map
        (fun bb : Blk => { bb with code := bb.code.map fun oo : IObj =>
          if oo.label = o.label then { oo with inst := (⟨"jump", [Arg.var tb.label]⟩ : Inst) } else oo })).map (·.preds)
      = st.blocks.map (·.preds)
    rw [hblocks, List.map_map, List.map_map, List.map_map, List.map_map]
    apply List.map_congr_left
    intro x hx
    simp only [Function.comp]
    by_cases hc : (cbbRedirect b.id freshId b.preds x).id = b.id
    · rw [if_pos hc]
      have hxb : x = b := id_unique hnd hx hb
        (by rw [← cbbRedirect_id b.id freshId b.preds x]; exact hc)
      rw [hxb]
      split_ifs <;> rfl
    · rw [if_neg hc]
      split_ifs with h2
      · exact cbbRedirect_preds b.id freshId b.preds x
      · exact cbbRedirect_preds b.id freshId b.preds x

/-- The chosen arm of the C4 witness. -/
def c4tb : Blk := { id := 2, label := "L2", isCond := false, preds := [1] }

/-- The defining comparison of the C4 witness. -/
def c4d : Inst := ⟨"eq_int", [Arg.var "%5", Arg.var "%5", Arg.var "%1"]⟩

/-- Witness for c4_amended at the concrete example state. -/
theorem c4_amended_witness :
    ((c4st.blocks.map (·.id)).Nodup ∧ c4cond ∈ c4st.blocks ∧
      9 ∉ c4st.blocks.map (·.id) ∧
      ¬ c4st.blocks.head?.map (·.id) = some c4cond.id ∧
      c4o.inst.op = "cbranch" ∧
      c4o.inst.args = Arg.var "%1" :: [Arg.var "%L2", Arg.var "%L3"] ∧
      defsOf c4st.codeObjs {0} (Arg.var "%1") = [c4d] ∧
      c4d.args = Arg.var "%5" :: Arg.var "%5" :: [Arg.var "%1"] ∧
      c4o.inst ∈ c4cond.insts ∧
      (if strStartsWith c4d.op "eq" then c4cond.taken else c4cond.fallThrough)
        = some 2 ∧
      ((changeBlockToBasic c4st c4cond (strStartsWith c4d.op "eq") 9).1).blk? 2
        = some c4tb) ∧
    (∃ st2, branch_folding_step c4st c4cond c4o {0} 9 = some st2 ∧
      (∃ y ∈ st2.blocks, y.id = 9) ∧
      (∀ y ∈ st2.blocks, y.id = 9 →
        y.isCond = false ∧ y.branch = some 2 ∧ y.label = c4cond.label ∧
        y.insts = replaceFirst c4cond.insts c4o.inst ⟨"jump", [Arg.var c4tb.label]⟩) ∧
      st2.blocks.map (·.preds) = c4st.blocks.map (·.preds)) :=
  ⟨by decide,
   c4_amended c4st c4cond c4o {0} 9 2 c4d (Arg.var "%1") (Arg.var "%5")
     [Arg.var "%L2", Arg.var "%L3"] [Arg.var "%1"] c4tb
     (by decide) (by decide) (by decide) (by decide) (by decide) (by decide)
     (by decide) (by decide) (by decide) (by decide) (by decide)⟩

/-- The keyword alternatives of the binary-operation regex of
constant_folding (uc_code.py line 1472). -/
def cfKws : List String :=
  ["add", "sub", "mul", "div", "mod", "lt", "le", "ge", "gt", "eq", "ne",
   "and", "or"]

/-- The regex of constant_folding under re.match: an operation keyword, an
underscore, and a type part that must not start with void; returns the two
captured groups. -/
def opSplit (op : String) : Option (String × String) :=
  match cfKws.find? (fun kw => strStartsWith op (kw ++ "_")) with
  | some kw =>
      let ty := strDrop op (kw.length + 1)
      if strStartsWith ty "void" then none else some (kw, ty)
  | none => none

/-- The operator-name translation of constant_folding (uc_code.py lines
1477 to 1482): float division becomes truediv, integer division becomes
floordiv, and becomes the operator-module name; every other name,
including or, is kept and looked up verbatim. -/
def opXlate (kw ty : String) : String :=
  if kw = "div" && ty = "float" then "truediv"
  else if kw = "div" && ty = "int" then "floordiv"
  else if kw = "and" then "and_"
  else kw

/-- Whether a literal value is a Python float. -/
def Arg.isFloatLit : Arg → Bool
  | Arg.floatv _ => true
  | _ => false

/-- The numeric value of a literal operand: ints and floats themselves,
bools as zero and one; a name carries no numeric value. -/
def Arg.toQ : Arg → Option Rat
  | Arg.intv n => some (n : Rat)
  | Arg.floatv q => some q
  | Arg.boolv b => some (if b then 1 else 0)
  | Arg.var _ => none

/-- A Python arithmetic result: a float when either operand was a float,
an int otherwise (the value is then integral and the floor is exact). -/
def pyMkNum (isF : Bool) (q : Rat) : Arg :=
  if isF then Arg.floatv q else Arg.intv ⌊q⌋

/-- The operator-module call getattr(operator, op)(v1, v2) of
constant_folding on two literal values: truediv is exact rational
division, floordiv and mod use floor semantics, comparisons compare the
numeric values, and_ is boolean on two bools and bitwise on integers, and
names without an operator-module attribute (or among them, since only and
is renamed) raise AttributeError, modelled as none, as are
ZeroDivisionError and TypeError. -/
def pyBinOp (op : String) (x y : Arg) : Option Arg :=
  match x.toQ, y.toQ with
  | some q1, some q2 =>
      let isF := x.isFloatLit || y.isFloatLit
      if op = "add" then some (pyMkNum isF (q1 + q2))
      else if op = "sub" then some (pyMkNum isF (q1 - q2))
      else if op = "mul" then some (pyMkNum isF (q1 * q2))
      else if op = "truediv" then
        if q2 = 0 then none else some (Arg.floatv (q1 / q2))
      else if op = "floordiv" then
        if q2 = 0 then none else some (pyMkNum isF (⌊q1 / q2⌋ : Rat))
      else if op = "mod" then
        if q2 = 0 then none else some (pyMkNum isF (q1 - q2 * (⌊q1 / q2⌋ : Rat)))
      else if op = "lt" then some (Arg.boolv (decide (q1 < q2)))
      else if op = "le" then some (Arg.boolv (decide (q1 ≤ q2)))
      else if op = "gt" then some (Arg.boolv (decide (q2 < q1)))
      else if op = "ge" then some (Arg.boolv (decide (q2 ≤ q1)))
      else if op = "eq" then some (Arg.boolv (decide (q1 = q2)))
      else if op = "ne" then some (Arg.boolv (decide (¬ q1 = q2)))
      else if op = "and_" then
        match x, y with
        | Arg.boolv b1, Arg.boolv b2 => some (Arg.boolv (b1 && b2))
        | Arg.floatv _, _ => none
        | _, Arg.floatv _ => none
        | _, _ => some (Arg.intv (Int.land ⌊q1⌋ ⌊q2⌋))
      else none
  | _, _ => none

/-- Python truthiness of a folded value, for the if over the bool-to-bool
operator result. -/
def pyTruthy : Arg → Bool
  | Arg.boolv b => b
  | Arg.intv n => decide (n ≠ 0)
  | Arg.floatv q => decide (q ≠ 0)
  | Arg.var s => decide (s.data ≠ [])

/-- literal_re of constant_folding. -/
def litRe (op : String) : Bool := strStartsWith op "literal_"

/-- bool_re of constant_folding: an eq or ne opcode. -/
def boolRe (op : String) : Bool :=
  strStartsWith op "eq_" || strStartsWith op "ne_"

/-- The canonical replacement for a boolean folding result (uc_code.py
lines 1506 to 1509): eq_type x,x,r for a true result and ne_type x,x,r
for a false one, both built from the first operand and the last element
of the folded instruction. -/
def canonInst (ty : String) (i : Inst) (tru : Bool) : Inst :=
  if tru then ⟨"eq_" ++ ty, [i.arg1, i.arg1, i.lastElem]⟩
  else ⟨"ne_" ++ ty, [i.arg1, i.arg1, i.lastElem]⟩

/-- The res // 1 adjustment applied when the declared type part is int
(uc_code.py lines 1500 to 1502): the identity on an int value, the floor
on a float one. -/
def resFloorOne (ty : String) (r : Arg) : Arg :=
  if ty = "int" then
    match r with
    | Arg.floatv q => Arg.floatv (⌊q⌋ : Rat)
    | r2 => r2
  else r

/-- The body of one constant_folding iteration (uc_code.py lines 1471 to
1557) for the instruction i of a block with current reaching set R: when
the opcode is a binary operation and each operand has exactly one
reaching definition, two literal definitions fold to a literal of the
computed value, or to the canonical eq/ne form when that value is a
Python bool; two canonical eq/ne definitions with repeated operands fold
through the operator applied to their eq flags, by truthiness; the
separate not_bool arm flips a single canonical definition.  none models a
Python exception, Inst.arg1 and Inst.arg2 stand for the subscripts
def_inst[1] and def_inst[2]. -/
def constFoldInst (objs : List IObj) (R : Finset Nat) (i : Inst) : Option Inst :=
  match opSplit i.op with
  | some (kw, ty) =>
      let op := opXlate kw ty
      match i.args with
      | p1 :: p2 :: _ =>
          match defsOf objs R p1, defsOf objs R p2 with
          | [d1], [d2] =>
              if litRe d1.op && litRe d2.op then
                match pyBinOp op d1.arg1 d2.arg1 with
                | none => none
                | some (Arg.boolv b) => some (canonInst ty i b)
                | some r => some ⟨"literal_" ++ ty, [resFloorOne ty r, i.lastElem]⟩
              else if boolRe d1.op && boolRe d2.op then
                if d1.arg1 = d1.arg2 && d2.arg1 = d2.arg2 then
                  match pyBinOp op (Arg.boolv (strStartsWith d1.op "eq"))
                      (Arg.boolv (strStartsWith d2.op "eq")) with
                  | none => none
                  | some res => some (canonInst ty i (pyTruthy res))
                else some i
              else some i
          | _, _ => some i
      | _ => none
  | none =>
      if i.op = "not_bool" then
        match i.args with
        | p1 :: _ =>
            match defsOf objs R p1 with
            | [d1] =>
                if boolRe d1.op && d1.arg1 = d1.arg2 then
                  if strStartsWith d1.op "eq"
                    then some ⟨"ne_bool", [i.arg1, i.arg1, i.lastElem]⟩
                    else some ⟨"eq_bool", [i.arg1, i.arg1, i.lastElem]⟩
                else some i
            | _ => some i
        | [] => none
      else some i

/-- The two boolean literal definitions of the C5 counterexample. -/
def c5objs : List IObj :=
  [mkIObj 0 ⟨"literal_bool", [Arg.boolv true, Arg.var "%1"]⟩,
   mkIObj 1 ⟨"literal_bool", [Arg.boolv false, Arg.var "%2"]⟩]

/-- C5 counterexample: an or_bool whose two operands each have exactly one
reaching literal definition is not replaced: the operator lookup
getattr(operator, "or") raises AttributeError, because only the and name
is renamed to the operator-module spelling, so constant folding crashes
instead of folding. -/
theorem c5_counterexample :
    defsOf c5objs {0, 1} (Arg.var "%1")
        = [⟨"literal_bool", [Arg.boolv true, Arg.var "%1"]⟩] ∧
    defsOf c5objs {0, 1} (Arg.var "%2")
        = [⟨"literal_bool", [Arg.boolv false, Arg.var "%2"]⟩] ∧
    constFoldInst c5objs {0, 1}
        ⟨"or_bool", [Arg.var "%1", Arg.var "%2", Arg.var "%3"]⟩ = none := by
  decide

/-- The two-literal-definition branch of constant folding, as an equation:
with the binary regex matched, both operands singly defined by literal
instructions, the folded instruction is determined by the operator value
alone. -/
theorem constFold_lit_eq (objs : List IObj) (R : Finset Nat) (i : Inst)
    (kw ty : String) (p1 p2 : Arg) (rest : List Arg) (d1 d2 : Inst)
    (hsplit : opSplit i.op = some (kw, ty))
    (hargs : i.args = p1 :: p2 :: rest)
    (h1 : defsOf objs R p1 = [d1]) (h2 : defsOf objs R p2 = [d2])
    (hl1 : litRe d1.op = true) (hl2 : litRe d2.op = true) :
    constFoldInst objs R i
      = match pyBinOp (opXlate kw ty) d1.arg1 d2.arg1 with
        | none => none
        | some (Arg.boolv b) => some (canonInst ty i b)
        | some r2 => some ⟨"literal_" ++ ty, [resFloorOne ty r2, i.lastElem]⟩ := by
  simp only [constFoldInst, hsplit, hargs, h1, h2, hl1, hl2, Bool.and_self,
    if_true]

/-- Integer floor division in pyBinOp: the floor of the exact rational
quotient, guarded by ZeroDivisionError. -/
theorem pyBinOp_floordiv_int (a b : Int) :
    pyBinOp "floordiv" (Arg.intv a) (Arg.intv b)
      = if (b : Rat) = 0 then none
        else some (Arg.intv ⌊(a : Rat) / (b : Rat)⌋) := by
  simp [pyBinOp, Arg.toQ, Arg.isFloatLit, pyMkNum]

/-- Float division in pyBinOp: the exact rational quotient, guarded by
ZeroDivisionError. -/
theorem pyBinOp_truediv_float (q1 q2 : Rat) :
    pyBinOp "truediv" (Arg.floatv q1) (Arg.floatv q2)
      = if q2 = 0 then none else some (Arg.floatv (q1 / q2)) := by
  simp [pyBinOp, Arg.toQ]

/-- Integer comparison in pyBinOp: a Python bool. -/
theorem pyBinOp_lt_int (a b : Int) :
    pyBinOp "lt" (Arg.intv a) (Arg.intv b)
      = some (Arg.boolv (decide (a < b))) := by
  simp [pyBinOp, Arg.toQ, Int.cast_lt]

/-- Integer addition in pyBinOp: the exact integer sum. -/
theorem pyBinOp_add_int (a b : Int) :
    pyBinOp "add" (Arg.intv a) (Arg.intv b)
      = some (Arg.intv (a + b)) := by
  simp [pyBinOp, Arg.toQ, Arg.isFloatLit, pyMkNum]

/-- The or name has no operator-module attribute: AttributeError. -/
theorem pyBinOp_or (x y : Arg) : pyBinOp "or" x y = none := by
  unfold pyBinOp
  cases hx : x.toQ <;> cases hy : y.toQ <;> simp

/-- C5 amended: when both operands of a binary operation have exactly one
reaching literal definition each, the instruction folds to a literal of
the computed value, with floor semantics for integer division (the floor
of the exact quotient) and exact rational semantics for float division,
both raising ZeroDivisionError on a zero divisor; a Python-bool result is
instead replaced by the canonical eq form on a true result and the
canonical ne form on a false one; and the or family is never folded, its
operator lookup raising AttributeError instead. -/
theorem c5_amended (objs objsF objsB : List IObj) (R : Finset Nat)
    (a b : Int) (q1 q2 : Rat) (x1 x2 y1 y2 z1 z2 r : Arg)
    (h1 : defsOf objs R x1 = [⟨"literal_int", [Arg.intv a, x1]⟩])
    (h2 : defsOf objs R x2 = [⟨"literal_int", [Arg.intv b, x2]⟩])
    (h3 : defsOf objsF R y1 = [⟨"literal_float", [Arg.floatv q1, y1]⟩])
    (h4 : defsOf objsF R y2 = [⟨"literal_float", [Arg.floatv q2, y2]⟩])
    (h5 : defsOf objsB R z1 = [⟨"literal_bool", [Arg.boolv true, z1]⟩])
    (h6 : defsOf objsB R z2 = [⟨"literal_bool", [Arg.boolv false, z2]⟩]) :
    (b ≠ 0 → constFoldInst objs R ⟨"div_int", [x1, x2, r]⟩
        = some ⟨"literal_int", [Arg.intv ⌊(a : Rat) / (b : Rat)⌋, r]⟩) ∧
    (b = 0 → constFoldInst objs R ⟨"div_int", [x1, x2, r]⟩ = none) ∧
    (q2 ≠ 0 → constFoldInst objsF R ⟨"div_float", [y1, y2, r]⟩
        = some ⟨"literal_float", [Arg.floatv (q1 / q2), r]⟩) ∧
    (constFoldInst objs R ⟨"lt_int", [x1, x2, r]⟩
        = some (if a < b then ⟨"eq_int", [x1, x1, r]⟩
                else ⟨"ne_int", [x1, x1, r]⟩)) ∧
    (constFoldInst objs R ⟨"add_int", [x1, x2, r]⟩
        = some ⟨"literal_int", [Arg.intv (a + b), r]⟩) ∧
    (constFoldInst objsB R ⟨"or_bool", [z1, z2, r]⟩ = none) := by
  refine ⟨?_, ?_, ?_, ?_, ?_, ?_⟩
  · intro hb
    rw [constFold_lit_eq objs R ⟨"div_int", [x1, x2, r]⟩ "div" "int" x1 x2 [r]
      _ _ rfl rfl h1 h2 rfl rfl]
    show (match pyBinOp "floordiv" (Arg.intv a) (Arg.intv b) with
        | none => none
        | some (Arg.boolv b2) =>
            some (canonInst "int" ⟨"div_int", [x1, x2, r]⟩ b2)
        | some r2 => some ⟨"literal_" ++ "int", [resFloorOne "int" r2,
            Inst.lastElem ⟨"div_int", [x1, x2, r]⟩]⟩)
      = some ⟨"literal_int", [Arg.intv ⌊(a : Rat) / (b : Rat)⌋, r]⟩
    rw [pyBinOp_floordiv_int, if_neg (by exact_mod_cast hb)]
    rfl
  · intro hb
    rw [constFold_lit_eq objs R ⟨"div_int", [x1, x2, r]⟩ "div" "int" x1 x2 [r]
      _ _ rfl rfl h1 h2 rfl rfl]
    show (match pyBinOp "floordiv" (Arg.intv a) (Arg.intv b) with
        | none => none
        | some (Arg.boolv b2) =>
            some (canonInst "int" ⟨"div_int", [x1, x2, r]⟩ b2)
        | some r2 => some ⟨"literal_" ++ "int", [resFloorOne "int" r2,
            Inst.lastElem ⟨"div_int", [x1, x2, r]⟩]⟩)
      = none
    rw [pyBinOp_floordiv_int, if_pos (by exact_mod_cast hb)]
  · intro hq
    rw [constFold_lit_eq objsF R ⟨"div_float", [y1, y2, r]⟩ "div" "float" y1 y2
      [r] _ _ rfl rfl h3 h4 rfl rfl]
    show (match pyBinOp "truediv" (Arg.floatv q1) (Arg.floatv q2) with
        | none => none
        | some (Arg.boolv b2) =>
            some (canonInst "float" ⟨"div_float", [y1, y2, r]⟩ b2)
        | some r2 => some ⟨"literal_" ++ "float", [resFloorOne "float" r2,
            Inst.lastElem ⟨"div_float", [y1, y2, r]⟩]⟩)
      = some ⟨"literal_float", [Arg.floatv (q1 / q2), r]⟩
    rw [pyBinOp_truediv_float, if_neg hq]
    rfl
  · rw [constFold_lit_eq objs R ⟨"lt_int", [x1, x2, r]⟩ "lt" "int" x1 x2 [r]
      _ _ rfl rfl h1 h2 rfl rfl]
    show (match pyBinOp "lt" (Arg.intv a) (Arg.intv b) with
        | none => none
        | some (Arg.boolv b2) =>
            some (canonInst "int" ⟨"lt_int", [x1, x2, r]⟩ b2)
        | some r2 => some ⟨"literal_" ++ "int", [resFloorOne "int" r2,
            Inst.lastElem ⟨"lt_int", [x1, x2, r]⟩]⟩)
      = some (if a < b then ⟨"eq_int", [x1, x1, r]⟩ else ⟨"ne_int", [x1, x1, r]⟩)
    rw [pyBinOp_lt_int]
    by_cases hab : a < b <;>
      simp [canonInst, hab, Inst.arg1, Inst.lastElem]
  · rw [constFold_lit_eq objs R ⟨"add_int", [x1, x2, r]⟩ "add" "int" x1 x2 [r]
      _ _ rfl rfl h1 h2 rfl rfl]
    show (match pyBinOp "add" (Arg.intv a) (Arg.intv b) with
        | none => none
        | some (Arg.boolv b2) =>
            some (canonInst "int" ⟨"add_int", [x1, x2, r]⟩ b2)
        | some r2 => some ⟨"literal_" ++ "int", [resFloorOne "int" r2,
            Inst.lastElem ⟨"add_int", [x1, x2, r]⟩]⟩)
      = some ⟨"literal_int", [Arg.intv (a + b), r]⟩
    rw [pyBinOp_add_int]
    rfl
  · rw [constFold_lit_eq objsB R ⟨"or_bool", [z1, z2, r]⟩ "or" "bool" z1 z2 [r]
      _ _ rfl rfl h5 h6 rfl rfl]
    show (match pyBinOp "or" (Arg.boolv true) (Arg.boolv false) with
        | none => none
        | some (Arg.boolv b2) =>
            some (canonInst "bool" ⟨"or_bool", [z1, z2, r]⟩ b2)
        | some r2 => some ⟨"literal_" ++ "bool", [resFloorOne "bool" r2,
            Inst.lastElem ⟨"or_bool", [z1, z2, r]⟩]⟩)
      = none
    rw [pyBinOp_or]

/-- Integer literal pool of the C5 witness. -/
def c5wI : List IObj :=
  [mkIObj 0 ⟨"literal_int", [Arg.intv 7, Arg.var "%1"]⟩,
   mkIObj 1 ⟨"literal_int", [Arg.intv (-2), Arg.var "%2"]⟩]

/-- Float literal pool of the C5 witness. -/
def c5wF : List IObj :=
  [mkIObj 0 ⟨"literal_float", [Arg.floatv 1, Arg.var "%1"]⟩,
   mkIObj 1 ⟨"literal_float", [Arg.floatv 2, Arg.var "%2"]⟩]

/-- Witness for c5_amended at concrete pools and values. -/
theorem c5_amended_witness :
    (defsOf c5wI {0, 1} (Arg.var "%1")
        = [⟨"literal_int", [Arg.intv 7, Arg.var "%1"]⟩] ∧
      defsOf c5wI {0, 1} (Arg.var "%2")
        = [⟨"literal_int", [Arg.intv (-2), Arg.var "%2"]⟩] ∧
      defsOf c5wF {0, 1} (Arg.var "%1")
        = [⟨"literal_float", [Arg.floatv 1, Arg.var "%1"]⟩] ∧
      defsOf c5wF {0, 1} (Arg.var "%2")
        = [⟨"literal_float", [Arg.floatv 2, Arg.var "%2"]⟩] ∧
      defsOf c5objs {0, 1} (Arg.var "%1")
        = [⟨"literal_bool", [Arg.boolv true, Arg.var "%1"]⟩] ∧
      defsOf c5objs {0, 1} (Arg.var "%2")
        = [⟨"literal_bool", [Arg.boolv false, Arg.var "%2"]⟩]) ∧
    (((-2 : Int) ≠ 0 →
        constFoldInst c5wI {0, 1} ⟨"div_int", [Arg.var "%1", Arg.var "%2", Arg.var "%9"]⟩
          = some ⟨"literal_int", [Arg.intv ⌊(7 : Rat) / ((-2 : Int) : Rat)⌋, Arg.var "%9"]⟩) ∧
      ((-2 : Int) = 0 →
        constFoldInst c5wI {0, 1} ⟨"div_int", [Arg.var "%1", Arg.var "%2", Arg.var "%9"]⟩
          = none) ∧
      ((2 : Rat) ≠ 0 →
        constFoldInst c5wF {0, 1} ⟨"div_float", [Arg.var "%1", Arg.var "%2", Arg.var "%9"]⟩
          = some ⟨"literal_float", [Arg.floatv ((1 : Rat) / 2), Arg.var "%9"]⟩) ∧
      (constFoldInst c5wI {0, 1} ⟨"lt_int", [Arg.var "%1", Arg.var "%2", Arg.var "%9"]⟩
          = some (if (7 : Int) < -2 then ⟨"eq_int", [Arg.var "%1", Arg.var "%1", Arg.var "%9"]⟩
                  else ⟨"ne_int", [Arg.var "%1", Arg.var "%1", Arg.var "%9"]⟩)) ∧
      (constFoldInst c5wI {0, 1} ⟨"add_int", [Arg.var "%1", Arg.var "%2", Arg.var "%9"]⟩
          = some ⟨"literal_int", [Arg.intv (7 + -2), Arg.var "%9"]⟩) ∧
      (constFoldInst c5objs {0, 1} ⟨"or_bool", [Arg.var "%1", Arg.var "%2", Arg.var "%9"]⟩
          = none)) :=
  ⟨⟨by decide, by decide, by decide, by decide, by decide, by decide⟩,
   c5_amended c5wI c5wF c5objs {0, 1} 7 (-2) 1 2 (Arg.var "%1") (Arg.var "%2")
     (Arg.var "%1") (Arg.var "%2") (Arg.var "%1") (Arg.var "%2") (Arg.var "%9")
     (by decide) (by decide) (by decide) (by decide) (by decide) (by decide)⟩
